import Mathlib

/-!
Verification of the clean-links bot (`clean_links_bot.py`).

Python strings are modelled as `List Char` (sequences of Unicode scalar
values).  The URL machinery from `urllib.parse` that the program uses —
`urlparse`, `urlunparse`, `parse_qsl`, `urlencode` (with `quote_plus`) and
`unquote` — is embedded faithfully below, following the CPython 3.11
implementation.  `urlparse` returns `Option` because CPython raises
`ValueError` on a netloc with unbalanced square brackets; every other
operation is total.  On malformed percent-escapes and malformed UTF-8 the
decoder follows CPython's `errors='replace'` handling (U+FFFD for each
malformed unit).

The bot's own functions (`clean_youtube`, `clean_twitter`, `clean_url`,
`extract_urls`, `is_new_message`, `handle_message`) are translated from
`src/clean_links_bot.py`.  Effects are made explicit: the dedup deque is
threaded as a value, the outbound send/delete calls are returned as data,
and the randomly chosen intro and the per-chat delete-mode configuration
are parameters of the handler.
-/

/-- A Python `str`: a list of Unicode scalar values. -/
abbrev Str := List Char

/-- Python `s.replace('\t','').replace('\r','').replace('\n','')`: CPython's
`urlsplit` removes these three characters from the URL before parsing. -/
def removeUnsafe (s : Str) : Str :=
  s.filter (fun c => c ≠ '\t' ∧ c ≠ '\r' ∧ c ≠ '\n')

/-- Python `s.split(sep, 1)` viewed componentwise: the part before the first
occurrence of `sep` and the part after it (the whole string and `[]` when
`sep` does not occur). -/
def splitOnce (sep : Char) (s : Str) : Str × Str :=
  (s.takeWhile (fun c => c ≠ sep), (s.dropWhile (fun c => c ≠ sep)).drop 1)

/-- The characters allowed after the first character of a URL scheme
(`scheme_chars` in `urllib.parse`): ASCII letters, digits, `+`, `-`, `.`. -/
def isSchemeChar (c : Char) : Bool :=
  c.isAlpha || c.isDigit || c = '+' || c = '-' || c = '.'

/-- The scheme-splitting step of CPython `urlsplit`: if the string has a
colon at position `i > 0`, its first character is an ASCII letter and the
characters up to the colon are scheme characters, split off the scheme and
lowercase it; otherwise the scheme is empty. -/
def splitScheme (s : Str) : Str × Str :=
  match s.dropWhile (fun c => c ≠ ':'), s.takeWhile (fun c => c ≠ ':') with
  | ':' :: rest, c :: cs =>
      if c.isAlpha ∧ cs.all isSchemeChar then ((c :: cs).map Char.toLower, rest)
      else ([], s)
  | _, _ => ([], s)

/-- The netloc-splitting step of CPython `urlsplit` (`_splitnetloc`): when
the string starts with `//`, the netloc extends to the first `/`, `?` or
`#`. -/
def splitNetloc (s : Str) : Str × Str :=
  match s with
  | '/' :: '/' :: rest =>
      (rest.takeWhile (fun c => c ≠ '/' ∧ c ≠ '?' ∧ c ≠ '#'),
       rest.dropWhile (fun c => c ≠ '/' ∧ c ≠ '?' ∧ c ≠ '#'))
  | _ => ([], s)

/-- The last `/`-separated segment of a string (everything after the last
`/`; the whole string when there is no `/`). -/
def lastSeg (s : Str) : Str :=
  (s.reverse.takeWhile (fun c => c ≠ '/')).reverse

/-- Everything up to and including the last `/` of a string (empty when
there is no `/`). -/
def beforeLastSeg (s : Str) : Str :=
  (s.reverse.dropWhile (fun c => c ≠ '/')).reverse

/-- CPython `urllib.parse._splitparams`: split `;params` off the last path
segment.  With a `/` present, the split happens at the first `;` at or
after the last `/`; otherwise at the first `;` of the whole string. -/
def splitparams (s : Str) : Str × Str :=
  if '/' ∈ s then
    if ';' ∈ lastSeg s then
      (beforeLastSeg s ++ (lastSeg s).takeWhile (fun c => c ≠ ';'),
       ((lastSeg s).dropWhile (fun c => c ≠ ';')).drop 1)
    else (s, [])
  else if ';' ∈ s then splitOnce ';' s else (s, [])

/-- The params-splitting step of CPython `urlparse`: `;params` is split off
the last path segment only when the path contains a `;` at all. -/
def paramsSplit (s : Str) : Str × Str :=
  if ';' ∈ s then splitparams s else (s, [])

/-- The six components of CPython `urlparse`. -/
structure ParseResult where
  scheme : Str
  netloc : Str
  path : Str
  params : Str
  query : Str
  fragment : Str
deriving DecidableEq

/-- CPython 3.11 `urllib.parse.urlparse`: remove tab/CR/LF, split scheme,
netloc (raising — here `none` — on a netloc with unbalanced brackets),
fragment (at the first `#`), query (at the first `?`), and `;params` from
the last path segment.  The unconditional `splitOnce` agrees componentwise
with CPython's guarded `split('#', 1)` / `split('?', 1)`. -/
def urlparse (url : Str) : Option ParseResult :=
  let u0 := removeUnsafe url
  let scheme := (splitScheme u0).1
  let u1 := (splitScheme u0).2
  let netloc := (splitNetloc u1).1
  let u2 := (splitNetloc u1).2
  if ('[' ∈ netloc ∧ ']' ∉ netloc) ∨ (']' ∈ netloc ∧ '[' ∉ netloc) then none
  else
    let u3 := (splitOnce '#' u2).1
    let fragment := (splitOnce '#' u2).2
    let u4 := (splitOnce '?' u3).1
    let query := (splitOnce '?' u3).2
    let pp := paramsSplit u4
    some ⟨scheme, netloc, pp.1, pp.2, query, fragment⟩

/-- CPython `urllib.parse.urlunparse` (via `urlunsplit`): reattach
`;params` to the path, then `//netloc` (inserting a `/` before a relative
path), `scheme:`, `?query` and `#fragment`, each only when non-empty. -/
def urlunparse (p : ParseResult) : Str :=
  let url0 := if p.params ≠ [] then p.path ++ ';' :: p.params else p.path
  let url1 :=
    if p.netloc ≠ [] ∨ url0.take 2 = ['/', '/'] then
      '/' :: '/' :: p.netloc ++
        (if url0 ≠ [] ∧ url0.head? ≠ some '/' then '/' :: url0 else url0)
    else url0
  let url2 := if p.scheme ≠ [] then p.scheme ++ ':' :: url1 else url1
  let url3 := if p.query ≠ [] then url2 ++ '?' :: p.query else url2
  if p.fragment ≠ [] then url3 ++ '#' :: p.fragment else url3

/-- The characters CPython's `quote` never escapes with empty `safe`
(`_ALWAYS_SAFE`): ASCII letters, digits, `_`, `.`, `-`, `~`. -/
def isAlwaysSafe (c : Char) : Bool :=
  c.isAlpha || c.isDigit || c = '_' || c = '.' || c = '-' || c = '~'

/-- The UTF-8 encoding of a code point, as a list of byte values. -/
def utf8Bytes (n : Nat) : List Nat :=
  if n < 128 then [n]
  else if n < 2048 then [192 + n / 64, 128 + n % 64]
  else if n < 65536 then [224 + n / 4096, 128 + n / 64 % 64, 128 + n % 64]
  else [240 + n / 262144, 128 + n / 4096 % 64, 128 + n / 64 % 64, 128 + n % 64]

/-- The uppercase hexadecimal digit for `n < 16`, as produced by CPython's
`quote` (`'%{:02X}'`). -/
def hexDigitUpper (n : Nat) : Char :=
  if n < 10 then Char.ofNat (48 + n) else Char.ofNat (55 + n)

/-- The percent-escape `%XX` (uppercase hex) of one byte. -/
def pctByte (b : Nat) : Str :=
  ['%', hexDigitUpper (b / 16), hexDigitUpper (b % 16)]

/-- The effect of CPython `quote_plus(·, safe='')` on one character: a
space becomes `+`, an always-safe character stays, and any other character
is replaced by the percent-escapes of its UTF-8 bytes. -/
def quotePlusChar (c : Char) : Str :=
  if c = ' ' then ['+']
  else if isAlwaysSafe c then [c]
  else (utf8Bytes c.toNat).flatMap pctByte

/-- CPython `urllib.parse.quote_plus(s, safe='')`. -/
def quote_plus (s : Str) : Str :=
  s.flatMap quotePlusChar

/-- CPython `urllib.parse.urlencode` on a list of string pairs with
`doseq=True` (the call in `clean_youtube`): quote each key and value with
`quote_plus`, join with `=` and `&`. -/
def urlencode (l : List (Str × Str)) : Str :=
  List.intercalate ['&'] (l.map (fun kv => quote_plus kv.1 ++ '=' :: quote_plus kv.2))

/-- The value of a hexadecimal digit, in either case (`_hextobyte` keys in
`urllib.parse`); `none` for a non-hex character. -/
def hexVal? (c : Char) : Option Nat :=
  if '0' ≤ c ∧ c ≤ '9' then some (c.toNat - 48)
  else if 'a' ≤ c ∧ c ≤ 'f' then some (c.toNat - 87)
  else if 'A' ≤ c ∧ c ≤ 'F' then some (c.toNat - 55)
  else none

/-- An intermediate unit of CPython `unquote`: either a byte awaiting UTF-8
decoding (an ASCII character or a decoded `%XX` escape) or a non-ASCII
character that passes through unchanged. -/
inductive Tok where
  | byte (b : Nat)
  | chr (c : Char)
deriving DecidableEq

/-- One step of the byte-collection phase of CPython `unquote`: a `%`
followed by two hex digits yields that byte (consuming the digits), a `%`
not followed by two hex digits stays a literal `%` byte, an ASCII
character becomes its byte, and a non-ASCII character passes through
(CPython decodes each maximal ASCII run, so a non-ASCII character always
breaks a byte run). -/
def pctStep (c : Char) (rest : Str) : Tok × Str :=
  if c = '%' then
    match rest with
    | h1 :: h2 :: rest2 =>
      match hexVal? h1, hexVal? h2 with
      | some a, some b => (Tok.byte (16 * a + b), rest2)
      | _, _ => (Tok.byte 37, rest)
    | _ => (Tok.byte 37, rest)
  else ((if c.toNat < 128 then Tok.byte c.toNat else Tok.chr c), rest)

/-- The byte-collection phase of CPython `unquote`, iterating `pctStep`
structurally on a fuel argument (each step consumes at least one
character, so string-length fuel never runs out). -/
def pctTokensF : Nat → Str → List Tok
  | _, [] => []
  | 0, _ :: _ => []
  | fuel + 1, c :: rest => (pctStep c rest).1 :: pctTokensF fuel (pctStep c rest).2

/-- The byte-collection phase of CPython `unquote`, iterating `pctStep`. -/
def pctTokens (s : Str) : List Tok :=
  pctTokensF s.length s

/-- Whether a byte is a UTF-8 continuation byte. -/
def contByte (b : Nat) : Bool :=
  128 ≤ b ∧ b < 192

/-- The replacement character U+FFFD used by `errors='replace'`. -/
def replChar : Char :=
  Char.ofNat 65533

/-- One step of UTF-8 decoding with replacement, given a first byte and
the following tokens: the decoded character (U+FFFD for a malformed
sequence) and the tokens still to process.  A malformed sequence consumes
only its first byte, as CPython's `'replace'` handler does. -/
def decodeStep (b : Nat) (rest : List Tok) : Char × List Tok :=
  if b < 128 then (Char.ofNat b, rest)
  else if 194 ≤ b ∧ b < 224 then
    match rest with
    | Tok.byte b1 :: rest2 =>
      if contByte b1 then (Char.ofNat ((b - 192) * 64 + (b1 - 128)), rest2)
      else (replChar, rest)
    | _ => (replChar, rest)
  else if 224 ≤ b ∧ b < 240 then
    match rest with
    | Tok.byte b1 :: Tok.byte b2 :: rest3 =>
      if contByte b1 ∧ contByte b2 then
        if 2048 ≤ (b - 224) * 4096 + (b1 - 128) * 64 + (b2 - 128) ∧
            ¬(55296 ≤ (b - 224) * 4096 + (b1 - 128) * 64 + (b2 - 128) ∧
              (b - 224) * 4096 + (b1 - 128) * 64 + (b2 - 128) < 57344) then
          (Char.ofNat ((b - 224) * 4096 + (b1 - 128) * 64 + (b2 - 128)), rest3)
        else (replChar, rest)
      else (replChar, rest)
    | _ => (replChar, rest)
  else if 240 ≤ b ∧ b < 245 then
    match rest with
    | Tok.byte b1 :: Tok.byte b2 :: Tok.byte b3 :: rest4 =>
      if contByte b1 ∧ contByte b2 ∧ contByte b3 then
        if 65536 ≤ (b - 240) * 262144 + (b1 - 128) * 4096 + (b2 - 128) * 64 + (b3 - 128) ∧
            (b - 240) * 262144 + (b1 - 128) * 4096 + (b2 - 128) * 64 + (b3 - 128) < 1114112 then
          (Char.ofNat ((b - 240) * 262144 + (b1 - 128) * 4096 + (b2 - 128) * 64 + (b3 - 128)),
            rest4)
        else (replChar, rest)
      else (replChar, rest)
    | _ => (replChar, rest)
  else (replChar, rest)

/-- UTF-8 decoding with replacement (`bytes.decode('utf-8', 'replace')`)
of the byte runs in a token stream; pass-through characters break byte
runs. -/
def decodeToksF : Nat → List Tok → Str
  | _, [] => []
  | 0, _ :: _ => []
  | fuel + 1, Tok.chr c :: rest => c :: decodeToksF fuel rest
  | fuel + 1, Tok.byte b :: rest =>
    (decodeStep b rest).1 :: decodeToksF fuel (decodeStep b rest).2

/-- UTF-8 decoding with replacement of a whole token stream, with
length fuel (each step consumes at least one token). -/
def decodeToks (l : List Tok) : Str :=
  decodeToksF l.length l

/-- CPython `urllib.parse.unquote(s, errors='replace')`. -/
def unquote (s : Str) : Str :=
  decodeToks (pctTokens s)

/-- CPython `urllib.parse.unquote_plus`: replace `+` by space, then
unquote. -/
def unquote_plus (s : Str) : Str :=
  unquote (s.map (fun c => if c = '+' then ' ' else c))

/-- Python `s.split(sep)` (all occurrences): always one more chunk than
separators, with empty chunks preserved. -/
def splitChunks (sep : Char) : Str → List Str
  | [] => [[]]
  | c :: rest =>
    if c = sep then [] :: splitChunks sep rest
    else
      match splitChunks sep rest with
      | [] => [[c]]
      | h :: t => (c :: h) :: t

/-- CPython `urllib.parse.parse_qsl(qs, keep_blank_values=True)`: split the
query on `&`, skip empty chunks, split each chunk at the first `=` (a chunk
without `=` keeps its blank value), and unquote names and values with
plus-to-space handling. -/
def parse_qsl (qs : Str) : List (Str × Str) :=
  if qs = [] then []
  else
    (splitChunks '&' qs).filterMap fun nv =>
      if nv = [] then none
      else
        let p := splitOnce '=' nv
        some (unquote_plus p.1, unquote_plus p.2)

/-- `YOUTUBE_HOSTS` from `clean_links_bot.py`. -/
def YOUTUBE_HOSTS : List Str :=
  [ "youtube.com".toList, "www.youtube.com".toList, "m.youtube.com".toList,
    "youtu.be".toList ]

/-- `TWITTER_HOSTS` from `clean_links_bot.py`. -/
def TWITTER_HOSTS : List Str :=
  [ "twitter.com".toList, "www.twitter.com".toList, "mobile.twitter.com".toList,
    "x.com".toList, "www.x.com".toList ]

/-- `YOUTUBE_ALLOWED_PARAMS` from `clean_links_bot.py`. -/
def YOUTUBE_ALLOWED_PARAMS : List Str :=
  [ "v".toList, "t".toList, "time_continue".toList, "list".toList, "index".toList ]

/-- `clean_youtube` from `clean_links_bot.py`.  The function re-parses its
argument; `clean_url` only calls it after `urlparse` succeeded on the same
string, so the `none` branch (where CPython would propagate the error) is
unreachable from `clean_url` and returns the input. -/
def clean_youtube (url : Str) : Str :=
  match urlparse url with
  | none => url
  | some parsed =>
    if parsed.netloc = "youtu.be".toList then
      let query := parse_qsl parsed.query
      let filtered := query.filter (fun kv => kv.1 = "t".toList)
      let new_query := urlencode filtered
      urlunparse { parsed with query := new_query }
    else
      let query := parse_qsl parsed.query
      let filtered := query.filter (fun kv => kv.1 ∈ YOUTUBE_ALLOWED_PARAMS)
      let new_query := urlencode filtered
      urlunparse { parsed with query := new_query }

/-- `clean_twitter` from `clean_links_bot.py`. -/
def clean_twitter (url : Str) : Str :=
  match urlparse url with
  | none => url
  | some parsed => urlunparse { parsed with query := [] }

/-- Python `s.lower()` (the URLs at hand are ASCII, where `str.lower` and
`Char.toLower` agree). -/
def lowerStr (s : Str) : Str :=
  s.map Char.toLower

/-- `clean_url` from `clean_links_bot.py`: parse (returning the input
unchanged on failure), lowercase the host, dispatch on the host sets, and
return the input unchanged for unknown hosts. -/
def clean_url (url : Str) : Str :=
  match urlparse url with
  | none => url
  | some parsed =>
    let host := lowerStr parsed.netloc
    if host ∈ YOUTUBE_HOSTS then clean_youtube url
    else if host ∈ TWITTER_HOSTS then clean_twitter url
    else url

/-- `DEDUP_CACHE_SIZE` from `clean_links_bot.py`. -/
def DEDUP_CACHE_SIZE : Nat := 10

/-- `deque(maxlen=10).append`: appending to a full deque evicts the oldest
element.  The queue is listed oldest first. -/
def dequeAppend (q : List Nat) (mid : Nat) : List Nat :=
  if DEDUP_CACHE_SIZE < (q ++ [mid]).length then
    (q ++ [mid]).drop ((q ++ [mid]).length - DEDUP_CACHE_SIZE)
  else q ++ [mid]

/-- `is_new_message` from `clean_links_bot.py`, with the global
`processed_queue` threaded explicitly: returns whether the id is new
together with the updated queue. -/
def is_new_message (mid : Nat) (q : List Nat) : Bool × List Nat :=
  if mid ∈ q then (false, q)
  else (true, dequeAppend q mid)

/-- The Telegram entity kinds the handler distinguishes. -/
inductive EntityType where
  | url
  | text_link
  | other
deriving DecidableEq

/-- A Telegram `MessageEntity`: kind, offset and length into the message
text, and (for masked links) the out-of-band URL. -/
structure Entity where
  type : EntityType
  offset : Nat
  length : Nat
  url : Option Str
deriving DecidableEq

/-- A Telegram user as read by the handler. -/
structure User where
  is_bot : Bool
  username : Option Str
  full_name : Str
deriving DecidableEq

/-- A Telegram message as read by the handler. -/
structure Message where
  message_id : Option Nat
  chat_id : Nat
  from_user : Option User
  text : Option Str
  caption : Option Str
  entities : List Entity
  caption_entities : List Entity
deriving DecidableEq

/-- Python slicing `text[o : o + l]` (clamping out-of-range indices). -/
def sliceStr (s : Str) (o l : Nat) : Str :=
  (s.drop o).take l

/-- `extract_urls` from `clean_links_bot.py`: URL entities contribute the
text slice at their offset, TEXT_LINK entities with a truthy embedded URL
contribute that URL; other entities are ignored. -/
def extract_urls (text : Str) (entities : List Entity) : List (Str × Entity) :=
  entities.filterMap fun ent =>
    match ent.type with
    | EntityType.url => some (sliceStr text ent.offset ent.length, ent)
    | EntityType.text_link =>
      match ent.url with
      | some u => if u ≠ [] then some (u, ent) else none
      | none => none
    | EntityType.other => none

/-- Python `a or b` on optional strings: `a` when truthy (present and
non-empty), else `b`. -/
def pyOrStr (a b : Option Str) : Option Str :=
  match a with
  | some s => if s ≠ [] then some s else b
  | none => b

/-- First-match association-list lookup, modelling `dict.get` on
`cleaned_mapping` (duplicate keys carry the same cleaned value, so first
match and last-insertion agree). -/
def lookupStr : List (Str × Str) → Str → Option Str
  | [], _ => none
  | kv :: t, key => if kv.1 = key then some kv.2 else lookupStr t key

/-- Stable insertion of an entity pair into a list sorted by descending
offset: the element goes before the first entry whose offset is not
larger. -/
def insertByDesc (x : Str × Entity) : List (Str × Entity) → List (Str × Entity)
  | [] => [x]
  | y :: t => if x.2.offset < y.2.offset then y :: insertByDesc x t else x :: y :: t

/-- Python `sorted(key=lambda x: x[1].offset, reverse=True)`: the stable
descending sort by offset, realised as a stable insertion sort. -/
def sortByOffsetDesc (l : List (Str × Entity)) : List (Str × Entity) :=
  l.foldr insertByDesc []

/-- One in-place splice of `handle_message`: replace the slice
`ct[offset : offset + length]` by the cleaned URL when the entity is a URL
entity (TEXT_LINK and other entities leave the text unchanged). -/
def spliceOne (mapping : List (Str × Str)) (ct : Str) (p : Str × Entity) : Str :=
  match p.2.type with
  | EntityType.url =>
    let cleaned := (lookupStr mapping p.1).getD p.1
    ct.take p.2.offset ++ cleaned ++ ct.drop (p.2.offset + p.2.length)
  | _ => ct

/-- The outbound effects of one `handle_message` invocation: whether the
original was deleted, and the sent message (chat id, text, optional
reply-to id), if any. -/
structure Effects where
  deleted : Bool
  sent : Option (Nat × Str × Option Nat)
deriving DecidableEq

/-- The body of `handle_message` after the dedup gate (none of it touches
the dedup queue): bot check, text/caption fallback, entity extraction,
cleaned mapping, text reconstruction, attribution and dispatch.  `cfg` is
the `DELETE_ORIGINAL_BY_CHAT` lookup (default `false`) and `intro` the
randomly chosen intro phrase. -/
def handleBody (cfg : Nat → Bool) (intro : Str) (msg : Message) : Effects :=
  if (match msg.from_user with | some u => u.is_bot | none => false) then ⟨false, none⟩
  else
    match pyOrStr msg.text msg.caption with
    | none => ⟨false, none⟩
    | some text =>
      if text = [] then ⟨false, none⟩
      else
        let entities := if msg.entities ≠ [] then msg.entities else msg.caption_entities
        let url_entities := extract_urls text entities
        if url_entities = [] then ⟨false, none⟩
        else
          let cleaned_mapping := url_entities.filterMap fun p =>
            if clean_url p.1 ≠ p.1 then some (p.1, clean_url p.1) else none
          if cleaned_mapping = [] then ⟨false, none⟩
          else
            let cleaned_text :=
              (sortByOffsetDesc url_entities).foldl (spliceOne cleaned_mapping) text
            let extra := url_entities.filterMap fun p =>
              match p.2.type with
              | EntityType.text_link =>
                match lookupStr cleaned_mapping p.1 with
                | some v => if v ≠ [] then some v else none
                | none => none
              | _ => none
            let cleaned_text2 :=
              if extra ≠ [] then
                cleaned_text ++ "\n\nCleaned links:\n".toList ++
                  List.intercalate "\n".toList extra
              else cleaned_text
            if cleaned_text2 = text ∧ extra = [] then ⟨false, none⟩
            else
              let author :=
                match msg.from_user with
                | some user =>
                  match user.username with
                  | some un => if un ≠ [] then '@' :: un else
                      (if user.full_name ≠ [] then user.full_name else "ktoś".toList)
                  | none => if user.full_name ≠ [] then user.full_name else "ktoś".toList
                | none => "ktoś".toList
              let final_text := intro ++ '\n' :: "Od ".toList ++ author ++ '\n' :: cleaned_text2
              if cfg msg.chat_id then ⟨true, some (msg.chat_id, final_text, none)⟩
              else ⟨false, some (msg.chat_id, final_text, msg.message_id)⟩

/-- The result of one `handle_message` invocation: the dedup queue
afterwards, plus the outbound effects. -/
structure HandlerResult where
  queue : List Nat
  deleted : Bool
  sent : Option (Nat × Str × Option Nat)
deriving DecidableEq

/-- `handle_message` from `clean_links_bot.py`: the dedup gate (skipped
entirely when the message id is `None`), then the body.  `is_new_message`
is the only code that touches the queue. -/
def handle_message (cfg : Nat → Bool) (intro : Str) (msg : Message)
    (queue : List Nat) : HandlerResult :=
  match msg.message_id with
  | some mid =>
    if mid ∈ queue then ⟨queue, false, none⟩
    else
      let e := handleBody cfg intro msg
      ⟨dequeAppend queue mid, e.deleted, e.sent⟩
  | none =>
    let e := handleBody cfg intro msg
    ⟨queue, e.deleted, e.sent⟩

/-- The text the handler operates on (`message.text or message.caption`). -/
def msgText (msg : Message) : Option Str :=
  pyOrStr msg.text msg.caption

/-- The entity list the handler operates on
(`message.entities or message.caption_entities or []`). -/
def msgEntities (msg : Message) : List Entity :=
  if msg.entities ≠ [] then msg.entities else msg.caption_entities

/-- The URLs the handler extracts from a message (empty when there is no
truthy text). -/
def msgUrls (msg : Message) : List (Str × Entity) :=
  match msgText msg with
  | some text => if text = [] then [] else extract_urls text (msgEntities msg)
  | none => []

/-- The query component of a URL string, `[]` when it does not parse (used
to state claims about the query of a cleaned URL). -/
def queryOf (url : Str) : Str :=
  match urlparse url with
  | some p => p.query
  | none => []

/-- Offering a list of identifiers to the dedup gate in order, keeping only
the final queue. -/
def offerAll (q : List Nat) : List Nat → List Nat
  | [] => q
  | mid :: rest => offerAll (is_new_message mid q).2 rest

/-- The last `DEDUP_CACHE_SIZE` elements of a list. -/
def lastCap (l : List Nat) : List Nat :=
  l.drop (l.length - DEDUP_CACHE_SIZE)

/-- The UTF-8 encoding of a string as a run of byte tokens (the token
stream `pctTokens` produces on the output of `quote_plus`). -/
def utf8Toks (s : Str) : List Tok :=
  s.flatMap (fun c => (utf8Bytes c.toNat).map Tok.byte)

/-- The per-host query-parameter policy `clean_url` applies, as a predicate
on decoded key-value pairs: for the short-link host only `t` survives, for
the other video hosts the five-key allow-list, and for the microblog hosts
nothing. -/
def cleanFilter (p : ParseResult) (kv : Str × Str) : Bool :=
  if lowerStr p.netloc ∈ YOUTUBE_HOSTS then
    (if p.netloc = "youtu.be".toList then kv.1 = "t".toList
     else kv.1 ∈ YOUTUBE_ALLOWED_PARAMS)
  else false

/-- A string that can serve as the query component of a reassembled URL
without disturbing re-parsing: no `#` or `?`, and none of the characters
`urlsplit` strips. -/
def goodQuery (q : Str) : Prop :=
  ∀ c ∈ q, c ≠ '#' ∧ c ≠ '?' ∧ c ≠ '\t' ∧ c ≠ '\r' ∧ c ≠ '\n'

/-- A character that never appears in any component produced by
`urlparse` (it is removed before splitting). -/
def isUnsafeChar (c : Char) : Prop :=
  c = '\t' ∨ c = '\r' ∨ c = '\n'

instance (c : Char) : Decidable (isUnsafeChar c) := by
  unfold isUnsafeChar
  infer_instance

/-- The invariants `urlparse` guarantees for its result, exactly the facts
needed to re-parse `urlunparse` output with a replaced query.  `shape`
records that with a non-empty netloc the path is either empty (with empty
params) or starts with `/`. -/
structure ParseInv (p : ParseResult) : Prop where
  scheme_ok : p.scheme = [] ∨
    (∃ c cs, p.scheme = c :: cs ∧ c.isAlpha = true ∧ cs.all isSchemeChar = true ∧
      p.scheme.map Char.toLower = p.scheme)
  netloc_ok : ∀ c ∈ p.netloc, c ≠ '/' ∧ c ≠ '?' ∧ c ≠ '#'
  netloc_brackets :
    ¬(('[' ∈ p.netloc ∧ ']' ∉ p.netloc) ∨ (']' ∈ p.netloc ∧ '[' ∉ p.netloc))
  path_ok : '#' ∉ p.path ∧ '?' ∉ p.path
  params_ok : '#' ∉ p.params ∧ '?' ∉ p.params
  shape : p.netloc ≠ [] →
    (p.path = [] ∧ p.params = []) ∨ p.path.head? = some '/'
  params_resplit :
    paramsSplit (if p.params ≠ [] then p.path ++ ';' :: p.params else p.path) =
      (p.path, p.params)
  scheme_clean : ∀ c ∈ p.scheme, ¬isUnsafeChar c
  netloc_clean : ∀ c ∈ p.netloc, ¬isUnsafeChar c
  path_clean : ∀ c ∈ p.path, ¬isUnsafeChar c
  params_clean : ∀ c ∈ p.params, ¬isUnsafeChar c
  fragment_clean : ∀ c ∈ p.fragment, ¬isUnsafeChar c

/-- A concrete message whose entities overlap: entity 1 covers the whole
text (whose slice is not a cleanable URL), entity 2 covers the embedded
short-link URL `https://youtu.be/A?t=%2f`, which `clean_url` rewrites to
the same-length string `https://youtu.be/A?t=%2F`.  Splicing in descending
offset order makes the outer entity restore the original text, so the
handler's final no-visible-change guard fires even though the cleaned
mapping is non-empty. -/
def overlapMsg : Message :=
  { message_id := some 1
    chat_id := 7
    from_user := some { is_bot := false, username := some ("alice".toList), full_name := "Alice".toList }
    text := some ("see https://youtu.be/A?t=%2f".toList)
    caption := none
    entities := [ { type := EntityType.url, offset := 0, length := 28, url := none },
                  { type := EntityType.url, offset := 4, length := 24, url := none } ]
    caption_entities := [] }

/-- A concrete message containing only a non-matching URL
(`https://example.com/page?x=1`), end-to-end example 4 of the spec. -/
def exampleMsg : Message :=
  { message_id := some 5
    chat_id := 7
    from_user := some { is_bot := false, username := some ("bob".toList), full_name := "Bob".toList }
    text := some ("https://example.com/page?x=1".toList)
    caption := none
    entities := [ { type := EntityType.url, offset := 0, length := 28, url := none } ]
    caption_entities := [] }

/-- A concrete message without a message id (e.g. a channel post seen
through an update that carries no id), used to exercise the dedup bypass. -/
def noIdMsg : Message :=
  { message_id := none
    chat_id := 7
    from_user := some { is_bot := false, username := some ("carol".toList), full_name := "Carol".toList }
    text := some ("https://youtu.be/ko70cExuzZM?si=yO4tqv9f73N1pCUp".toList)
    caption := none
    entities := [ { type := EntityType.url, offset := 0, length := 48, url := none } ]
    caption_entities := [] }

/-! ### List toolkit -/

theorem takeWhile_append_all {α : Type} {p : α → Bool} {a : List α}
    (h : ∀ c ∈ a, p c = true) (b : List α) :
    (a ++ b).takeWhile p = a ++ b.takeWhile p := by
  induction a with
  | nil => simp
  | cons x t ih =>
    have hx := h x (by simp)
    simp [List.takeWhile_cons, hx]
    exact ih (fun c hc => h c (by simp [hc]))

theorem dropWhile_append_all {α : Type} {p : α → Bool} {a : List α}
    (h : ∀ c ∈ a, p c = true) (b : List α) :
    (a ++ b).dropWhile p = b.dropWhile p := by
  induction a with
  | nil => simp
  | cons x t ih =>
    have hx := h x (by simp)
    simp [List.dropWhile_cons, hx]
    exact ih (fun c hc => h c (by simp [hc]))

theorem takeWhile_eq_self_of_all {α : Type} {p : α → Bool} {a : List α}
    (h : ∀ c ∈ a, p c = true) : a.takeWhile p = a := by
  have := takeWhile_append_all h ([] : List α)
  simpa using this

theorem dropWhile_eq_nil_of_all {α : Type} {p : α → Bool} {a : List α}
    (h : ∀ c ∈ a, p c = true) : a.dropWhile p = [] := by
  have := dropWhile_append_all h ([] : List α)
  simpa using this

theorem dropWhile_head_false {α : Type} {p : α → Bool} {l : List α} {x : α} {t : List α}
    (h : l.dropWhile p = x :: t) : p x = false := by
  induction l with
  | nil => simp at h
  | cons y r ih =>
    by_cases hy : p y
    · simp [List.dropWhile_cons, hy] at h
      exact ih h
    · simp [List.dropWhile_cons, hy] at h
      rw [← h.1]
      simp [hy]

theorem mem_of_mem_takeWhile {α : Type} {p : α → Bool} {l : List α} {x}
    (h : x ∈ l.takeWhile p) : x ∈ l :=
  List.IsPrefix.mem h ⟨l.dropWhile p, List.takeWhile_append_dropWhile p l⟩

theorem mem_of_mem_dropWhile {α : Type} {p : α → Bool} {l : List α} {x}
    (h : x ∈ l.dropWhile p) : x ∈ l :=
  List.IsSuffix.mem h ⟨l.takeWhile p, List.takeWhile_append_dropWhile p l⟩

/-! ### splitOnce toolkit -/

theorem splitOnce_of_not_mem {sep : Char} {s : Str} (h : sep ∉ s) :
    splitOnce sep s = (s, []) := by
  have hall : ∀ c ∈ s, (fun c => decide (c ≠ sep)) c = true := by
    intro c hc
    simp
    exact fun he => h (he ▸ hc)
  unfold splitOnce
  rw [takeWhile_eq_self_of_all hall, dropWhile_eq_nil_of_all hall]
  simp

theorem splitOnce_append {sep : Char} {a : Str} (h : sep ∉ a) (b : Str) :
    splitOnce sep (a ++ sep :: b) = (a, b) := by
  have hall : ∀ c ∈ a, (fun c => decide (c ≠ sep)) c = true := by
    intro c hc
    simp
    exact fun he => h (he ▸ hc)
  unfold splitOnce
  rw [takeWhile_append_all hall, dropWhile_append_all hall,
    List.takeWhile_cons, List.dropWhile_cons]
  simp

theorem splitOnce_fst_not_mem (sep : Char) (s : Str) : sep ∉ (splitOnce sep s).1 := by
  intro hmem
  have := List.mem_takeWhile_imp hmem
  simp at this

/-! ### Char toolkit -/

theorem toNat_ofNat_valid {n : Nat} (h : Nat.isValidChar n) : (Char.ofNat n).toNat = n := by
  simp [Char.ofNat, h, Char.ofNatAux, Char.toNat, UInt32.toNat, BitVec.toNat_ofNatLt]

theorem char_toNat_lt (c : Char) : c.toNat < 1114112 := by
  have h := c.valid
  rcases h with h | ⟨_, h⟩
  · exact Nat.lt_trans h (by omega)
  · exact h

theorem char_toNat_valid (c : Char) : Nat.isValidChar c.toNat := c.valid

theorem char_eq_of_toNat_eq {a b : Char} (h : a.toNat = b.toNat) : a = b := by
  apply Char.ext
  have : a.val.toNat = b.val.toNat := h
  exact UInt32.toNat.inj this

theorem isAlpha_toNat {c : Char} (h : c.isAlpha = true) :
    (65 ≤ c.toNat ∧ c.toNat ≤ 90) ∨ (97 ≤ c.toNat ∧ c.toNat ≤ 122) := by
  simp [Char.isAlpha, Char.isUpper, Char.isLower] at h
  obtain h | h := h
  · exact Or.inl ⟨h.1, h.2⟩
  · exact Or.inr ⟨h.1, h.2⟩

theorem isAlpha_of_toNat {c : Char}
    (h : (65 ≤ c.toNat ∧ c.toNat ≤ 90) ∨ (97 ≤ c.toNat ∧ c.toNat ≤ 122)) :
    c.isAlpha = true := by
  simp [Char.isAlpha, Char.isUpper, Char.isLower]
  obtain h | h := h
  · exact Or.inl ⟨h.1, h.2⟩
  · exact Or.inr ⟨h.1, h.2⟩

theorem isDigit_toNat {c : Char} (h : c.isDigit = true) :
    48 ≤ c.toNat ∧ c.toNat ≤ 57 := by
  simp [Char.isDigit] at h
  exact ⟨h.1, h.2⟩

theorem toLower_spec (c : Char) :
    Char.toLower c =
      if 65 ≤ c.toNat ∧ c.toNat ≤ 90 then Char.ofNat (c.toNat + 32) else c := by
  unfold Char.toLower
  simp [ge_iff_le]

theorem toLower_toNat (c : Char) :
    (Char.toLower c).toNat =
      if 65 ≤ c.toNat ∧ c.toNat ≤ 90 then c.toNat + 32 else c.toNat := by
  rw [toLower_spec]
  by_cases h : 65 ≤ c.toNat ∧ c.toNat ≤ 90
  · simp [h]
    exact toNat_ofNat_valid (Or.inl (by omega))
  · simp [h]

theorem toLower_idem (c : Char) : Char.toLower (Char.toLower c) = Char.toLower c := by
  apply char_eq_of_toNat_eq
  rw [toLower_toNat, toLower_toNat]
  split_ifs <;> omega

theorem toLower_isAlpha {c : Char} (h : c.isAlpha = true) :
    (Char.toLower c).isAlpha = true := by
  apply isAlpha_of_toNat
  rw [toLower_toNat]
  rcases isAlpha_toNat h with h2 | h2 <;> split_ifs <;> omega

/-! ### UTF-8 decode/encode roundtrip -/

theorem decodeStep_length (b : Nat) (rest : List Tok) :
    (decodeStep b rest).2.length ≤ rest.length := by
  unfold decodeStep
  split_ifs <;>
    rcases rest with _ | ⟨⟨b1⟩ | ⟨c1⟩, _ | ⟨⟨b2⟩ | ⟨c2⟩, _ | ⟨⟨b3⟩ | ⟨c3⟩, r⟩⟩⟩ <;>
    simp <;> split_ifs <;> simp <;> omega

theorem decodeToksF_eq : ∀ (f1 : Nat) (l : List Tok), l.length ≤ f1 →
    ∀ f2, l.length ≤ f2 → decodeToksF f1 l = decodeToksF f2 l := by
  intro f1
  induction f1 with
  | zero =>
    intro l hl f2 _
    rcases l with _ | ⟨t, rest⟩
    · rcases f2 with _ | m <;> rfl
    · simp at hl
  | succ n ih =>
    intro l hl f2 h2
    rcases l with _ | ⟨t, rest⟩
    · rcases f2 with _ | m <;> rfl
    · rcases f2 with _ | m
      · simp at h2
      · rcases t with b | c
        · show (decodeStep b rest).1 :: decodeToksF n (decodeStep b rest).2 =
            (decodeStep b rest).1 :: decodeToksF m (decodeStep b rest).2
          rw [ih (decodeStep b rest).2
            (by have := decodeStep_length b rest; simp at hl; omega) m
            (by have := decodeStep_length b rest; simp at h2; omega)]
        · show c :: decodeToksF n rest = c :: decodeToksF m rest
          rw [ih rest (by simp at hl; omega) m (by simp at h2; omega)]

theorem decodeToks_nil : decodeToks [] = [] :=
  rfl

theorem decodeToks_chr (c : Char) (rest : List Tok) :
    decodeToks (Tok.chr c :: rest) = c :: decodeToks rest :=
  rfl

theorem decodeToks_byte (b : Nat) (rest : List Tok) :
    decodeToks (Tok.byte b :: rest) =
      (decodeStep b rest).1 :: decodeToks (decodeStep b rest).2 := by
  show (decodeStep b rest).1 :: decodeToksF rest.length (decodeStep b rest).2 =
    (decodeStep b rest).1 :: decodeToksF (decodeStep b rest).2.length (decodeStep b rest).2
  rw [decodeToksF_eq rest.length _ (decodeStep_length b rest) _ le_rfl]

theorem decodeStep_one {b : Nat} (h : b < 128) (rest : List Tok) :
    decodeStep b rest = (Char.ofNat b, rest) := by
  unfold decodeStep
  rw [if_pos h]

theorem decodeStep_two {b b1 : Nat} (h1 : 194 ≤ b) (h2 : b < 224)
    (hc : contByte b1 = true) (rest : List Tok) :
    decodeStep b (Tok.byte b1 :: rest) =
      (Char.ofNat ((b - 192) * 64 + (b1 - 128)), rest) := by
  unfold decodeStep
  rw [if_neg (by omega), if_pos ⟨h1, h2⟩]
  simp [hc]

theorem decodeStep_three {b b1 b2 : Nat} (h1 : 224 ≤ b) (h2 : b < 240)
    (hc1 : contByte b1 = true) (hc2 : contByte b2 = true)
    (hlo : 2048 ≤ (b - 224) * 4096 + (b1 - 128) * 64 + (b2 - 128))
    (hsur : ¬(55296 ≤ (b - 224) * 4096 + (b1 - 128) * 64 + (b2 - 128) ∧
      (b - 224) * 4096 + (b1 - 128) * 64 + (b2 - 128) < 57344)) (rest : List Tok) :
    decodeStep b (Tok.byte b1 :: Tok.byte b2 :: rest) =
      (Char.ofNat ((b - 224) * 4096 + (b1 - 128) * 64 + (b2 - 128)), rest) := by
  unfold decodeStep
  rw [if_neg (by omega), if_neg (by omega), if_pos ⟨h1, h2⟩]
  simp [hc1, hc2]
  intro h
  exact absurd (h hlo) hsur

theorem decodeStep_four {b b1 b2 b3 : Nat} (h1 : 240 ≤ b) (h2 : b < 245)
    (hc1 : contByte b1 = true) (hc2 : contByte b2 = true) (hc3 : contByte b3 = true)
    (hlo : 65536 ≤ (b - 240) * 262144 + (b1 - 128) * 4096 + (b2 - 128) * 64 + (b3 - 128))
    (hhi : (b - 240) * 262144 + (b1 - 128) * 4096 + (b2 - 128) * 64 + (b3 - 128) < 1114112)
    (rest : List Tok) :
    decodeStep b (Tok.byte b1 :: Tok.byte b2 :: Tok.byte b3 :: rest) =
      (Char.ofNat ((b - 240) * 262144 + (b1 - 128) * 4096 + (b2 - 128) * 64 + (b3 - 128)),
        rest) := by
  unfold decodeStep
  rw [if_neg (by omega), if_neg (by omega), if_neg (by omega), if_pos ⟨h1, h2⟩]
  simp [hc1, hc2, hc3]
  intro h
  exact absurd (h hlo) (by omega)

theorem utf8Bytes_encodes (c : Char) (rest : List Tok) :
    decodeToks ((utf8Bytes c.toNat).map Tok.byte ++ rest) = c :: decodeToks rest := by
  have hv : Nat.isValidChar c.toNat := char_toNat_valid c
  have hofnat : Char.ofNat c.toNat = c := Char.ofNat_toNat c
  rcases Nat.lt_or_ge c.toNat 128 with h1 | h1
  · have e : utf8Bytes c.toNat = [c.toNat] := by
      unfold utf8Bytes
      rw [if_pos h1]
    rw [e]
    simp only [List.map_cons, List.map_nil, List.cons_append, List.nil_append]
    rw [decodeToks_byte, decodeStep_one h1, hofnat]
  · rcases Nat.lt_or_ge c.toNat 2048 with h2 | h2
    · have e : utf8Bytes c.toNat = [192 + c.toNat / 64, 128 + c.toNat % 64] := by
        unfold utf8Bytes
        rw [if_neg (by omega), if_pos h2]
      rw [e]
      simp only [List.map_cons, List.map_nil, List.cons_append, List.nil_append]
      rw [decodeToks_byte,
        decodeStep_two (by omega) (by omega) (by simp [contByte]; omega)]
      have harith : (192 + c.toNat / 64 - 192) * 64 + (128 + c.toNat % 64 - 128) = c.toNat := by
        omega
      rw [harith, hofnat]
    · rcases Nat.lt_or_ge c.toNat 65536 with h3 | h3
      · have e : utf8Bytes c.toNat =
            [224 + c.toNat / 4096, 128 + c.toNat / 64 % 64, 128 + c.toNat % 64] := by
          unfold utf8Bytes
          rw [if_neg (by omega), if_neg (by omega), if_pos h3]
        rw [e]
        simp only [List.map_cons, List.map_nil, List.cons_append, List.nil_append]
        have harith : (224 + c.toNat / 4096 - 224) * 4096 +
            (128 + c.toNat / 64 % 64 - 128) * 64 + (128 + c.toNat % 64 - 128) = c.toNat := by
          omega
        have hnosur : ¬(55296 ≤ c.toNat ∧ c.toNat < 57344) := by
          rcases hv with hv | hv
          · omega
          · omega
        rw [decodeToks_byte,
          decodeStep_three (by omega) (by omega)
            (by simp [contByte]; omega) (by simp [contByte]; omega)
            (by rw [harith]; omega) (by rw [harith]; exact hnosur)]
        rw [harith, hofnat]
      · have hhi : c.toNat < 1114112 := char_toNat_lt c
        have e : utf8Bytes c.toNat =
            [240 + c.toNat / 262144, 128 + c.toNat / 4096 % 64,
              128 + c.toNat / 64 % 64, 128 + c.toNat % 64] := by
          unfold utf8Bytes
          rw [if_neg (by omega), if_neg (by omega), if_neg (by omega)]
        rw [e]
        simp only [List.map_cons, List.map_nil, List.cons_append, List.nil_append]
        have harith : (240 + c.toNat / 262144 - 240) * 262144 +
            (128 + c.toNat / 4096 % 64 - 128) * 4096 +
            (128 + c.toNat / 64 % 64 - 128) * 64 + (128 + c.toNat % 64 - 128) = c.toNat := by
          omega
        rw [decodeToks_byte,
          decodeStep_four (by omega) (by omega)
            (by simp [contByte]; omega) (by simp [contByte]; omega)
            (by simp [contByte]; omega)
            (by rw [harith]; omega) (by rw [harith]; omega)]
        rw [harith, hofnat]

theorem decodeToks_utf8Toks (s : Str) : decodeToks (utf8Toks s) = s := by
  induction s with
  | nil =>
    rw [utf8Toks]
    simp [decodeToks_nil]
  | cons c t ih =>
    have e : utf8Toks (c :: t) = (utf8Bytes c.toNat).map Tok.byte ++ utf8Toks t := by
      simp [utf8Toks]
    rw [e, utf8Bytes_encodes, ih]

/-! ### quote_plus character classes -/

theorem char_ne_of_toNat_ne {a b : Char} (h : a.toNat ≠ b.toNat) : a ≠ b :=
  fun he => h (he ▸ rfl)

theorem hexDigitUpper_toNat {n : Nat} (h : n < 16) :
    (hexDigitUpper n).toNat = if n < 10 then 48 + n else 55 + n := by
  unfold hexDigitUpper
  split_ifs with h10
  · exact toNat_ofNat_valid (Or.inl (by omega))
  · exact toNat_ofNat_valid (Or.inl (by omega))

theorem hexVal_hexDigitUpper {n : Nat} (h : n < 16) :
    hexVal? (hexDigitUpper n) = some n := by
  interval_cases n <;> decide

theorem utf8Bytes_lt_256 {n : Nat} (h : n < 1114112) : ∀ b ∈ utf8Bytes n, b < 256 := by
  intro b hb
  unfold utf8Bytes at hb
  split_ifs at hb <;> simp at hb <;> omega

theorem isAlwaysSafe_toNat {c : Char} (h : isAlwaysSafe c = true) :
    (65 ≤ c.toNat ∧ c.toNat ≤ 90) ∨ (97 ≤ c.toNat ∧ c.toNat ≤ 122) ∨
    (48 ≤ c.toNat ∧ c.toNat ≤ 57) ∨ c.toNat = 95 ∨ c.toNat = 46 ∨
    c.toNat = 45 ∨ c.toNat = 126 := by
  simp only [isAlwaysSafe, Bool.or_eq_true, decide_eq_true_eq] at h
  rcases h with ((((h | h) | h) | h) | h) | h
  · rcases isAlpha_toNat h with h2 | h2
    · exact Or.inl h2
    · exact Or.inr (Or.inl h2)
  · exact Or.inr (Or.inr (Or.inl (isDigit_toNat h)))
  · subst h
    right; right; right; left
    decide
  · subst h
    right; right; right; right; left
    decide
  · subst h
    right; right; right; right; right; left
    decide
  · subst h
    right; right; right; right; right; right
    decide

theorem mem_pctByte_toNat {b : Nat} (hb : b < 256) {x : Char} (h : x ∈ pctByte b) :
    x.toNat = 37 ∨ (48 ≤ x.toNat ∧ x.toNat ≤ 57) ∨ (65 ≤ x.toNat ∧ x.toNat ≤ 70) := by
  simp [pctByte] at h
  rcases h with h | h | h
  · subst h
    left
    decide
  · subst h
    rw [hexDigitUpper_toNat (by omega)]
    split_ifs <;> omega
  · subst h
    rw [hexDigitUpper_toNat (by omega)]
    split_ifs <;> omega

theorem mem_quote_plus_toNat {s : Str} {x : Char} (h : x ∈ quote_plus s) :
    x.toNat = 43 ∨ x.toNat = 37 ∨ (48 ≤ x.toNat ∧ x.toNat ≤ 57) ∨
    (65 ≤ x.toNat ∧ x.toNat ≤ 90) ∨ (97 ≤ x.toNat ∧ x.toNat ≤ 122) ∨
    x.toNat = 95 ∨ x.toNat = 46 ∨ x.toNat = 45 ∨ x.toNat = 126 := by
  rw [quote_plus] at h
  rw [List.mem_flatMap] at h
  obtain ⟨c, _, hc⟩ := h
  unfold quotePlusChar at hc
  split_ifs at hc with hsp hsafe
  · simp at hc
    subst hc
    left
    decide
  · simp at hc
    subst hc
    rcases isAlwaysSafe_toNat hsafe with h | h | h | h | h | h | h
    · right; right; right; left; exact h
    · right; right; right; right; left; exact h
    · right; right; left; exact h
    · right; right; right; right; right; left; exact h
    · right; right; right; right; right; right; left; exact h
    · right; right; right; right; right; right; right; left; exact h
    · right; right; right; right; right; right; right; right; exact h
  · rw [List.mem_flatMap] at hc
    obtain ⟨b, hb, hxb⟩ := hc
    have hb256 : b < 256 := utf8Bytes_lt_256 (char_toNat_lt c) b hb
    rcases mem_pctByte_toNat hb256 hxb with h | h | h
    · right; left; exact h
    · right; right; left; exact h
    · right; right; right; left
      omega

theorem quote_plus_no_amp {s : Str} : '&' ∉ quote_plus s := by
  intro h
  rcases mem_quote_plus_toNat h with h | h | h | h | h | h | h | h | h <;>
    revert h <;> decide

theorem quote_plus_no_eq {s : Str} : '=' ∉ quote_plus s := by
  intro h
  rcases mem_quote_plus_toNat h with h | h | h | h | h | h | h | h | h <;>
    revert h <;> decide

/-! ### unquote_plus of quote_plus -/

theorem pctStep_length (c : Char) (rest : Str) :
    (pctStep c rest).2.length ≤ rest.length := by
  unfold pctStep
  split_ifs
  · rcases rest with _ | ⟨h1, _ | ⟨h2, rest2⟩⟩
    · simp
    · simp
    · rcases ha : hexVal? h1 with _ | a <;> rcases hb : hexVal? h2 with _ | b <;>
        simp [ha, hb]
      omega
  · simp
  · simp

theorem pctTokensF_eq : ∀ (f1 : Nat) (l : Str), l.length ≤ f1 →
    ∀ f2, l.length ≤ f2 → pctTokensF f1 l = pctTokensF f2 l := by
  intro f1
  induction f1 with
  | zero =>
    intro l hl f2 _
    rcases l with _ | ⟨c, rest⟩
    · rcases f2 with _ | m <;> rfl
    · simp at hl
  | succ n ih =>
    intro l hl f2 h2
    rcases l with _ | ⟨c, rest⟩
    · rcases f2 with _ | m <;> rfl
    · rcases f2 with _ | m
      · simp at h2
      · show (pctStep c rest).1 :: pctTokensF n (pctStep c rest).2 =
          (pctStep c rest).1 :: pctTokensF m (pctStep c rest).2
        rw [ih (pctStep c rest).2
          (by have := pctStep_length c rest; simp at hl; omega) m
          (by have := pctStep_length c rest; simp at h2; omega)]

theorem pctTokens_nil : pctTokens [] = [] :=
  rfl

theorem pctTokens_cons (c : Char) (rest : Str) :
    pctTokens (c :: rest) = (pctStep c rest).1 :: pctTokens (pctStep c rest).2 := by
  show (pctStep c rest).1 :: pctTokensF rest.length (pctStep c rest).2 =
    (pctStep c rest).1 :: pctTokensF (pctStep c rest).2.length (pctStep c rest).2
  rw [pctTokensF_eq rest.length _ (pctStep_length c rest) _ le_rfl]

theorem pctStep_pct {h1 h2 : Char} {a b : Nat} (ha : hexVal? h1 = some a)
    (hb : hexVal? h2 = some b) (rest : Str) :
    pctStep '%' (h1 :: h2 :: rest) = (Tok.byte (16 * a + b), rest) := by
  unfold pctStep
  rw [if_pos rfl]
  simp [ha, hb]

theorem pctStep_ascii {c : Char} (hne : c ≠ '%') (hlt : c.toNat < 128) (rest : Str) :
    pctStep c rest = (Tok.byte c.toNat, rest) := by
  unfold pctStep
  rw [if_neg hne]
  simp [hlt]

theorem pctTokens_pctByte {b : Nat} (hb : b < 256) (r : Str) :
    pctTokens (pctByte b ++ r) = Tok.byte b :: pctTokens r := by
  have ha1 := hexVal_hexDigitUpper (n := b / 16) (by omega)
  have ha2 := hexVal_hexDigitUpper (n := b % 16) (by omega)
  have e : pctByte b ++ r = '%' :: hexDigitUpper (b / 16) :: hexDigitUpper (b % 16) :: r := by
    simp [pctByte]
  rw [e, pctTokens_cons, pctStep_pct ha1 ha2]
  have hb16 : 16 * (b / 16) + b % 16 = b := by omega
  simp [hb16]

theorem pctTokens_pctBytes {bs : List Nat} (h : ∀ b ∈ bs, b < 256) (r : Str) :
    pctTokens (bs.flatMap pctByte ++ r) = bs.map Tok.byte ++ pctTokens r := by
  induction bs with
  | nil => simp
  | cons b t ih =>
    simp only [List.flatMap_cons, List.append_assoc, List.map_cons]
    rw [pctTokens_pctByte (h b (by simp)), ih (fun x hx => h x (by simp [hx]))]
    simp

theorem isAlwaysSafe_ne_plus {c : Char} (h : isAlwaysSafe c = true) : c ≠ '+' := by
  intro he
  subst he
  exact absurd h (by decide)

theorem isAlwaysSafe_ne_pct {c : Char} (h : isAlwaysSafe c = true) : c ≠ '%' := by
  intro he
  subst he
  exact absurd h (by decide)

theorem isAlwaysSafe_lt_128 {c : Char} (h : isAlwaysSafe c = true) : c.toNat < 128 := by
  rcases isAlwaysSafe_toNat h with h2 | h2 | h2 | h2 | h2 | h2 | h2 <;> omega

theorem plusSp_quotePlusChar (c : Char) :
    (quotePlusChar c).map (fun x => if x = '+' then ' ' else x) =
      if c = ' ' then [' ']
      else if isAlwaysSafe c then [c]
      else (utf8Bytes c.toNat).flatMap pctByte := by
  unfold quotePlusChar
  split_ifs with hsp hsafe
  · simp
  · simp
    exact fun he => absurd (he ▸ hsafe) (by decide)
  · apply List.map_congr_left ?_ |>.trans (List.map_id _)
    intro x hx
    rw [List.mem_flatMap] at hx
    obtain ⟨b, hb, hxb⟩ := hx
    have hb256 : b < 256 := utf8Bytes_lt_256 (char_toNat_lt c) b hb
    have hplus : ('+' : Char).toNat = 43 := by decide
    have hne : x ≠ '+' := by
      rcases mem_pctByte_toNat hb256 hxb with h | h | h <;>
        exact char_ne_of_toNat_ne (by rw [hplus]; omega)
    simp [hne]

theorem pctTokens_plusSp_quote_plus (s : Str) :
    pctTokens ((quote_plus s).map (fun x => if x = '+' then ' ' else x)) = utf8Toks s := by
  induction s with
  | nil => simp [quote_plus, utf8Toks, pctTokens_nil]
  | cons c t ih =>
    have e : quote_plus (c :: t) = quotePlusChar c ++ quote_plus t := by
      simp [quote_plus]
    rw [e, List.map_append, plusSp_quotePlusChar]
    have eu : utf8Toks (c :: t) = (utf8Bytes c.toNat).map Tok.byte ++ utf8Toks t := by
      simp [utf8Toks]
    split_ifs with hsp hsafe
    · subst hsp
      rw [List.singleton_append, pctTokens_cons, pctStep_ascii (by decide) (by decide), ih]
      rw [eu]
      have : utf8Bytes (' '.toNat) = [' '.toNat] := by decide
      rw [this]
      rfl
    · rw [List.singleton_append, pctTokens_cons,
        pctStep_ascii (isAlwaysSafe_ne_pct hsafe) (isAlwaysSafe_lt_128 hsafe), ih]
      rw [eu]
      have : utf8Bytes c.toNat = [c.toNat] := by
        unfold utf8Bytes
        rw [if_pos (isAlwaysSafe_lt_128 hsafe)]
      rw [this]
      rfl
    · rw [pctTokens_pctBytes (utf8Bytes_lt_256 (char_toNat_lt c)), ih, eu]

theorem unquote_plus_quote_plus (s : Str) : unquote_plus (quote_plus s) = s := by
  unfold unquote_plus unquote
  rw [pctTokens_plusSp_quote_plus, decodeToks_utf8Toks]

/-! ### splitChunks and parse_qsl of urlencode -/

theorem splitChunks_ne_nil (sep : Char) (s : Str) : splitChunks sep s ≠ [] := by
  induction s with
  | nil => simp [splitChunks]
  | cons c t ih =>
    rw [splitChunks]
    split_ifs
    · simp
    · rcases h : splitChunks sep t with _ | ⟨a, r⟩
      · simp
      · simp

theorem splitChunks_not_mem {sep : Char} {s : Str} (h : sep ∉ s) :
    splitChunks sep s = [s] := by
  induction s with
  | nil => rfl
  | cons c t ih =>
    rw [splitChunks]
    have hc : ¬c = sep := fun he => h (by simp [he])
    rw [if_neg hc]
    rw [ih (fun hm => h (by simp [hm]))]

theorem splitChunks_append {sep : Char} {a : Str} (h : sep ∉ a) (b : Str) :
    splitChunks sep (a ++ sep :: b) = a :: splitChunks sep b := by
  induction a with
  | nil =>
    simp only [List.nil_append]
    rw [splitChunks, if_pos rfl]
  | cons c t ih =>
    have hc : ¬c = sep := fun he => h (by simp [he])
    simp only [List.cons_append]
    rw [splitChunks, if_neg hc, ih (fun hm => h (by simp [hm]))]

theorem intercalate_cons_two (sep a b : Str) (t : List Str) :
    List.intercalate sep (a :: b :: t) = a ++ sep ++ List.intercalate sep (b :: t) := by
  simp [List.intercalate, List.intersperse]

theorem intercalate_single (sep a : Str) : List.intercalate sep [a] = a := by
  simp [List.intercalate, List.intersperse]

theorem splitChunks_intercalate {parts : List Str} (hne : parts ≠ [])
    (h : ∀ p ∈ parts, '&' ∉ p) :
    splitChunks '&' (List.intercalate ['&'] parts) = parts := by
  induction parts with
  | nil => exact absurd rfl hne
  | cons x t ih =>
    rcases t with _ | ⟨y, t2⟩
    · rw [intercalate_single]
      exact splitChunks_not_mem (h x (by simp))
    · rw [intercalate_cons_two]
      have e : x ++ ['&'] ++ List.intercalate ['&'] (y :: t2) =
          x ++ '&' :: List.intercalate ['&'] (y :: t2) := by
        simp
      rw [e, splitChunks_append (h x (by simp))]
      rw [ih (by simp) (fun p hp => h p (by simp [hp]))]

theorem intercalate_ne_nil {p : Str} (hp : p ≠ []) (r : List Str) :
    List.intercalate ['&'] (p :: r) ≠ [] := by
  rcases r with _ | ⟨y, t⟩
  · rw [intercalate_single]
    exact hp
  · rw [intercalate_cons_two]
    simp [hp]

theorem mem_intercalate_amp {parts : List Str} {x : Char}
    (h : x ∈ List.intercalate ['&'] parts) : x = '&' ∨ ∃ p ∈ parts, x ∈ p := by
  induction parts with
  | nil => simp [List.intercalate] at h
  | cons a t ih =>
    rcases t with _ | ⟨y, t2⟩
    · rw [intercalate_single] at h
      exact Or.inr ⟨a, by simp, h⟩
    · rw [intercalate_cons_two] at h
      simp only [List.append_assoc, List.mem_append] at h
      rcases h with h | h | h
      · exact Or.inr ⟨a, by simp, h⟩
      · simp at h
        exact Or.inl h
      · rcases ih h with he | ⟨p, hp, hcp⟩
        · exact Or.inl he
        · exact Or.inr ⟨p, by simp [hp], hcp⟩

theorem filterMap_some_of {α : Type} {g : α → Option α} {l : List α}
    (h : ∀ x ∈ l, g x = some x) : l.filterMap g = l := by
  induction l with
  | nil => rfl
  | cons x t ih =>
    rw [List.filterMap_cons, h x (by simp)]
    rw [ih (fun y hy => h y (by simp [hy]))]

theorem mem_urlencode_part {l : List (Str × Str)} {p : Str}
    (hp : p ∈ l.map (fun kv => quote_plus kv.1 ++ '=' :: quote_plus kv.2)) {x : Char}
    (hx : x ∈ p) :
    x = '=' ∨ (∃ s, x ∈ quote_plus s) := by
  rw [List.mem_map] at hp
  obtain ⟨kv, _, he⟩ := hp
  subst he
  rw [List.mem_append] at hx
  rcases hx with hx | hx
  · exact Or.inr ⟨kv.1, hx⟩
  · rcases List.mem_cons.mp hx with he | hx
    · exact Or.inl he
    · exact Or.inr ⟨kv.2, hx⟩

theorem goodQuery_urlencode (l : List (Str × Str)) : goodQuery (urlencode l) := by
  intro c hc
  unfold urlencode at hc
  have hfacts : c.toNat = 38 ∨ c.toNat = 61 ∨ c.toNat = 43 ∨ c.toNat = 37 ∨
      (48 ≤ c.toNat ∧ c.toNat ≤ 57) ∨ (65 ≤ c.toNat ∧ c.toNat ≤ 90) ∨
      (97 ≤ c.toNat ∧ c.toNat ≤ 122) ∨ c.toNat = 95 ∨ c.toNat = 46 ∨
      c.toNat = 45 ∨ c.toNat = 126 := by
    rcases mem_intercalate_amp hc with he | ⟨p, hp, hcp⟩
    · subst he
      left
      decide
    · rcases mem_urlencode_part hp hcp with he | ⟨s, hs⟩
      · subst he
        right; left
        decide
      · rcases mem_quote_plus_toNat hs with h | h | h | h | h | h | h | h | h
        · right; right; left; exact h
        · right; right; right; left; exact h
        · right; right; right; right; left; exact h
        · right; right; right; right; right; left; exact h
        · right; right; right; right; right; right; left; exact h
        · right; right; right; right; right; right; right; left; exact h
        · right; right; right; right; right; right; right; right; left; exact h
        · right; right; right; right; right; right; right; right; right; left; exact h
        · right; right; right; right; right; right; right; right; right; right; exact h
  have h35 : ('#' : Char).toNat = 35 := by decide
  have h63 : ('?' : Char).toNat = 63 := by decide
  have h9 : ('\t' : Char).toNat = 9 := by decide
  have h13 : ('\r' : Char).toNat = 13 := by decide
  have h10 : ('\n' : Char).toNat = 10 := by decide
  refine ⟨char_ne_of_toNat_ne (by rw [h35]; omega),
    char_ne_of_toNat_ne (by rw [h63]; omega),
    char_ne_of_toNat_ne (by rw [h9]; omega),
    char_ne_of_toNat_ne (by rw [h13]; omega),
    char_ne_of_toNat_ne (by rw [h10]; omega)⟩

theorem parse_qsl_urlencode (l : List (Str × Str)) : parse_qsl (urlencode l) = l := by
  rcases l with _ | ⟨kv, t⟩
  · rfl
  · have hqs : urlencode (kv :: t) ≠ [] := by
      unfold urlencode
      simp only [List.map_cons]
      exact intercalate_ne_nil (by simp) _
    unfold parse_qsl
    rw [if_neg hqs]
    unfold urlencode
    simp only [List.map_cons]
    have hnoamp : ∀ p ∈ (kv :: t).map (fun kv => quote_plus kv.1 ++ '=' :: quote_plus kv.2),
        '&' ∉ p := by
      intro p hp hmem
      rcases mem_urlencode_part hp hmem with he | ⟨s, hs⟩
      · exact absurd he (by decide)
      · exact quote_plus_no_amp hs
    rw [show ((fun kv : Str × Str => quote_plus kv.1 ++ '=' :: quote_plus kv.2) kv ::
        t.map (fun kv => quote_plus kv.1 ++ '=' :: quote_plus kv.2)) =
        (kv :: t).map (fun kv => quote_plus kv.1 ++ '=' :: quote_plus kv.2) from by simp]
    rw [splitChunks_intercalate (by simp) hnoamp]
    rw [List.filterMap_map]
    apply filterMap_some_of
    intro x _
    have hne : quote_plus x.1 ++ '=' :: quote_plus x.2 ≠ [] := by simp
    simp only [Function.comp_apply, hne, if_neg]
    rw [splitOnce_append quote_plus_no_eq]
    simp [unquote_plus_quote_plus]

/-! ### splitScheme, splitNetloc, splitparams specifications -/

theorem isSchemeChar_toLower {c : Char} (h : isSchemeChar c = true) :
    isSchemeChar (Char.toLower c) = true := by
  simp only [isSchemeChar, Bool.or_eq_true, decide_eq_true_eq] at h ⊢
  rcases h with (((h | h) | h) | h) | h
  · exact Or.inl (Or.inl (Or.inl (Or.inl (toLower_isAlpha h))))
  · have hd := isDigit_toNat h
    have he : Char.toLower c = c := by
      rw [toLower_spec, if_neg (by omega)]
    rw [he]
    exact Or.inl (Or.inl (Or.inl (Or.inr h)))
  · subst h
    left; left; right
    decide
  · subst h
    left; right
    decide
  · subst h
    right
    decide

theorem isSchemeChar_ne_colon {c : Char} (h : isSchemeChar c = true) : c ≠ ':' := by
  intro he
  subst he
  exact absurd h (by decide)

theorem isAlpha_ne_colon {c : Char} (h : c.isAlpha = true) : c ≠ ':' := by
  intro he
  subst he
  exact absurd h (by decide)

theorem isAlpha_ne_slash {c : Char} (h : c.isAlpha = true) : c ≠ '/' := by
  intro he
  subst he
  exact absurd h (by decide)

theorem splitScheme_spec (s : Str) :
    ((splitScheme s).1 = [] ∧ (splitScheme s).2 = s) ∨
    (∃ c cs, (splitScheme s).1 = (c :: cs).map Char.toLower ∧ c.isAlpha = true ∧
      cs.all isSchemeChar = true ∧
      s = (c :: cs) ++ ':' :: (splitScheme s).2) := by
  unfold splitScheme
  split
  · rename_i rest c cs hdw htw
    split_ifs with hcond
    · right
      refine ⟨c, cs, rfl, hcond.1, hcond.2, ?_⟩
      have hd : s.takeWhile (fun c => decide (c ≠ ':')) ++
          s.dropWhile (fun c => decide (c ≠ ':')) = s :=
        List.takeWhile_append_dropWhile _ _
      rw [htw, hdw] at hd
      exact hd.symm
    · exact Or.inl ⟨rfl, rfl⟩
  · exact Or.inl ⟨rfl, rfl⟩

theorem splitScheme_snd_subset {s : Str} {x : Char} (h : x ∈ (splitScheme s).2) : x ∈ s := by
  rcases splitScheme_spec s with ⟨_, h2⟩ | ⟨c, cs, _, _, _, h2⟩
  · rw [h2] at h
    exact h
  · rw [h2]
    simp [h]

theorem splitNetloc_fst_mem {s : Str} {c : Char} (h : c ∈ (splitNetloc s).1) :
    c ≠ '/' ∧ c ≠ '?' ∧ c ≠ '#' := by
  unfold splitNetloc at h
  split at h
  · have := List.mem_takeWhile_imp h
    simp at this
    exact this
  · simp at h

theorem splitNetloc_cases (s : Str) :
    ((splitNetloc s).1 = [] ∧ (splitNetloc s).2 = s) ∨
    ((splitNetloc s).2 = [] ∨
      ∃ c t, (splitNetloc s).2 = c :: t ∧ (c = '/' ∨ c = '?' ∨ c = '#')) := by
  unfold splitNetloc
  split
  · rename_i rest
    right
    rcases hdw : rest.dropWhile (fun c => decide (c ≠ '/' ∧ c ≠ '?' ∧ c ≠ '#')) with _ | ⟨c, t⟩
    · left
      simp [hdw]
    · right
      refine ⟨c, t, by simp [hdw], ?_⟩
      have := dropWhile_head_false hdw
      simp at this
      by_cases h1 : c = '/'
      · exact Or.inl h1
      · by_cases h2 : c = '?'
        · exact Or.inr (Or.inl h2)
        · exact Or.inr (Or.inr (this h1 h2))
  · exact Or.inl ⟨rfl, rfl⟩

theorem splitNetloc_fst_subset {s : Str} {x : Char} (h : x ∈ (splitNetloc s).1) : x ∈ s := by
  unfold splitNetloc at h
  split at h
  · rename_i rest
    have := mem_of_mem_takeWhile h
    simp [this]
  · simp at h

theorem splitNetloc_snd_subset {s : Str} {x : Char} (h : x ∈ (splitNetloc s).2) : x ∈ s := by
  unfold splitNetloc at h
  split at h
  · rename_i rest
    have := mem_of_mem_dropWhile h
    simp [this]
  · exact h

theorem splitOnce_fst_subset {sep : Char} {s : Str} {x : Char}
    (h : x ∈ (splitOnce sep s).1) : x ∈ s :=
  mem_of_mem_takeWhile h

theorem splitOnce_snd_subset {sep : Char} {s : Str} {x : Char}
    (h : x ∈ (splitOnce sep s).2) : x ∈ s := by
  unfold splitOnce at h
  rcases hdw : s.dropWhile (fun c => decide (c ≠ sep)) with _ | ⟨c, t⟩
  · rw [hdw] at h
    simp at h
  · rw [hdw] at h
    simp at h
    exact mem_of_mem_dropWhile (by rw [hdw]; simp [h])

/-! ### lastSeg / beforeLastSeg / splitparams -/

theorem beforeLastSeg_append_lastSeg (s : Str) : beforeLastSeg s ++ lastSeg s = s := by
  unfold beforeLastSeg lastSeg
  rw [← List.reverse_append]
  rw [List.takeWhile_append_dropWhile]
  exact List.reverse_reverse s

theorem lastSeg_no_slash (s : Str) : '/' ∉ lastSeg s := by
  intro h
  unfold lastSeg at h
  rw [List.mem_reverse] at h
  have := List.mem_takeWhile_imp h
  simp at this

theorem mem_lastSeg {s : Str} {x : Char} (h : x ∈ lastSeg s) : x ∈ s := by
  have he := beforeLastSeg_append_lastSeg s
  rw [← he]
  simp [h]

theorem mem_beforeLastSeg {s : Str} {x : Char} (h : x ∈ beforeLastSeg s) : x ∈ s := by
  have he := beforeLastSeg_append_lastSeg s
  rw [← he]
  simp [h]

theorem beforeLastSeg_of_mem {s : Str} (h : '/' ∈ s) :
    ∃ a, beforeLastSeg s = a ++ ['/'] := by
  have hd : '/' ∈ beforeLastSeg s := by
    have := beforeLastSeg_append_lastSeg s
    rcases List.mem_append.mp (this ▸ h) with hm | hm
    · exact hm
    · exact absurd hm (lastSeg_no_slash s)
  unfold beforeLastSeg at hd ⊢
  rcases hdw : s.reverse.dropWhile (fun c => decide (c ≠ '/')) with _ | ⟨c, t⟩
  · rw [hdw] at hd
    simp at hd
  · have hc := dropWhile_head_false hdw
    simp at hc
    subst hc
    exact ⟨t.reverse, by simp⟩

theorem dropWhile_ne_mem {c : Char} {l : Str} (h : c ∈ l) :
    ∃ d, l.dropWhile (fun x => decide (x ≠ c)) = c :: d := by
  induction l with
  | nil => simp at h
  | cons y t ih =>
    by_cases hy : y = c
    · subst hy
      refine ⟨t, ?_⟩
      rw [List.dropWhile_cons, if_neg (by simp)]
    · rcases List.mem_cons.mp h with he | hm
      · exact absurd he.symm hy
      · obtain ⟨d, hd⟩ := ih hm
        refine ⟨d, ?_⟩
        rw [List.dropWhile_cons, if_pos (by simp [hy]), hd]

theorem head?_append_cons (a : Str) (c : Char) (x y : Str) :
    (a ++ c :: x).head? = (a ++ c :: y).head? := by
  cases a <;> rfl

theorem lastSeg_append {a : Str} {b : Str} (hb : '/' ∉ b) :
    lastSeg (a ++ '/' :: b) = b ∧ beforeLastSeg (a ++ '/' :: b) = a ++ ['/'] := by
  have hall : ∀ c ∈ b.reverse, (fun c => decide (c ≠ '/')) c = true := by
    intro c hc
    simp
    rw [List.mem_reverse] at hc
    exact fun he => hb (he ▸ hc)
  constructor
  · unfold lastSeg
    rw [show (a ++ '/' :: b).reverse = b.reverse ++ '/' :: a.reverse by simp]
    rw [takeWhile_append_all hall, List.takeWhile_cons]
    simp
  · unfold beforeLastSeg
    rw [show (a ++ '/' :: b).reverse = b.reverse ++ '/' :: a.reverse by simp]
    rw [dropWhile_append_all hall, List.dropWhile_cons]
    simp

theorem splitparams_slash_semi {s : Str} (hsl : '/' ∈ s) (hsemi : ';' ∈ lastSeg s) {d : Str}
    (hdw : (lastSeg s).dropWhile (fun x => decide (x ≠ ';')) = ';' :: d) :
    splitparams s =
      (beforeLastSeg s ++ (lastSeg s).takeWhile (fun x => decide (x ≠ ';')), d) := by
  unfold splitparams
  rw [if_pos hsl, if_pos hsemi, hdw]
  simp

theorem splitparams_slash_nosemi {s : Str} (hsl : '/' ∈ s) (hsemi : ';' ∉ lastSeg s) :
    splitparams s = (s, []) := by
  unfold splitparams
  rw [if_pos hsl, if_neg hsemi]

theorem splitparams_noslash {s : Str} (hsl : '/' ∉ s) (hsemi : ';' ∈ s) :
    splitparams s = splitOnce ';' s := by
  unfold splitparams
  rw [if_neg hsl, if_pos hsemi]

theorem splitparams_join {s : Str} {d : Str}
    (hdw : (lastSeg s).dropWhile (fun x => decide (x ≠ ';')) = ';' :: d) :
    (beforeLastSeg s ++ (lastSeg s).takeWhile (fun x => decide (x ≠ ';'))) ++ ';' :: d = s := by
  have ht := List.takeWhile_append_dropWhile (fun x => decide (x ≠ ';')) (lastSeg s)
  rw [hdw] at ht
  rw [List.append_assoc, ht]
  exact beforeLastSeg_append_lastSeg s

theorem paramsSplit_resplit_any (s : Str) {pa pr : Str} (hpe : paramsSplit s = (pa, pr)) :
    paramsSplit (if pr ≠ [] then pa ++ ';' :: pr else pa) = (pa, pr) := by
  by_cases hsemi : ';' ∈ s
  · have hps : splitparams s = (pa, pr) := by
      rw [← hpe, paramsSplit, if_pos hsemi]
    by_cases hsl : '/' ∈ s
    · by_cases hls : ';' ∈ lastSeg s
      · obtain ⟨d, hdw⟩ := dropWhile_ne_mem hls
        rw [splitparams_slash_semi hsl hls hdw] at hps
        have hpa : pa = beforeLastSeg s ++ (lastSeg s).takeWhile (fun x => decide (x ≠ ';')) :=
          (Prod.mk.injEq _ _ _ _ ▸ hps).1.symm
        have hpr : pr = d := (Prod.mk.injEq _ _ _ _ ▸ hps).2.symm
        subst hpa hpr
        by_cases hd : pr = []
        · subst hd
          rw [if_neg (by simp)]
          obtain ⟨a, hb⟩ := beforeLastSeg_of_mem hsl
          have htw_ns : '/' ∉ (lastSeg s).takeWhile (fun x => decide (x ≠ ';')) :=
            fun hm => lastSeg_no_slash s (mem_of_mem_takeWhile hm)
          have htw_nsemi : ';' ∉ (lastSeg s).takeWhile (fun x => decide (x ≠ ';')) := by
            intro hm
            have := List.mem_takeWhile_imp hm
            simp at this
          have hpath : beforeLastSeg s ++ (lastSeg s).takeWhile (fun x => decide (x ≠ ';')) =
              a ++ '/' :: (lastSeg s).takeWhile (fun x => decide (x ≠ ';')) := by
            rw [hb]
            simp
          rw [hpath]
          by_cases hp2 : ';' ∈ a ++ '/' :: (lastSeg s).takeWhile (fun x => decide (x ≠ ';'))
          · rw [paramsSplit, if_pos hp2]
            have hsl2 : '/' ∈ a ++ '/' :: (lastSeg s).takeWhile (fun x => decide (x ≠ ';')) := by
              simp
            have hlast := lastSeg_append (a := a) htw_ns
            rw [splitparams_slash_nosemi hsl2 (by rw [hlast.1]; exact htw_nsemi)]
          · rw [paramsSplit, if_neg hp2]
        · rw [if_pos hd, splitparams_join hdw, paramsSplit, if_pos hsemi,
            splitparams_slash_semi hsl hls hdw]
      · rw [splitparams_slash_nosemi hsl hls] at hps
        have hpa : pa = s := (Prod.mk.injEq _ _ _ _ ▸ hps).1.symm
        have hpr : pr = [] := (Prod.mk.injEq _ _ _ _ ▸ hps).2.symm
        subst hpa hpr
        rw [if_neg (by simp)]
        exact hpe
    · obtain ⟨d, hdw⟩ := dropWhile_ne_mem hsemi
      have hso : splitOnce ';' s = (s.takeWhile (fun x => decide (x ≠ ';')), d) := by
        unfold splitOnce
        rw [hdw]
        simp
      rw [splitparams_noslash hsl hsemi, hso] at hps
      have hpa : pa = s.takeWhile (fun x => decide (x ≠ ';')) :=
        (Prod.mk.injEq _ _ _ _ ▸ hps).1.symm
      have hpr : pr = d := (Prod.mk.injEq _ _ _ _ ▸ hps).2.symm
      subst hpa hpr
      have hts_nsemi : ';' ∉ s.takeWhile (fun x => decide (x ≠ ';')) := by
        intro hm
        have := List.mem_takeWhile_imp hm
        simp at this
      by_cases hd : pr = []
      · subst hd
        rw [if_neg (by simp), paramsSplit, if_neg hts_nsemi]
      · rw [if_pos hd]
        have hj : s.takeWhile (fun x => decide (x ≠ ';')) ++ ';' :: pr = s := by
          have ht := List.takeWhile_append_dropWhile (fun x => decide (x ≠ ';')) s
          rw [hdw] at ht
          exact ht
        rw [hj, paramsSplit, if_pos hsemi, splitparams_noslash hsl hsemi, hso]
  · have hps2 : paramsSplit s = (s, []) := by
      rw [paramsSplit, if_neg hsemi]
    rw [hpe] at hps2
    have hpa : pa = s := (Prod.mk.injEq _ _ _ _ ▸ hps2).1
    have hpr : pr = [] := (Prod.mk.injEq _ _ _ _ ▸ hps2).2
    subst hpa hpr
    rw [if_neg (by simp)]
    exact hpe

theorem paramsSplit_fst_subset {s : Str} {x : Char} (h : x ∈ (paramsSplit s).1) : x ∈ s := by
  unfold paramsSplit at h
  split_ifs at h with hsemi
  · by_cases hsl : '/' ∈ s
    · by_cases hls : ';' ∈ lastSeg s
      · obtain ⟨d, hdw⟩ := dropWhile_ne_mem hls
        rw [splitparams_slash_semi hsl hls hdw] at h
        simp only [List.mem_append] at h
        rcases h with hm | hm
        · exact mem_beforeLastSeg hm
        · exact mem_lastSeg (mem_of_mem_takeWhile hm)
      · rw [splitparams_slash_nosemi hsl hls] at h
        exact h
    · rw [splitparams_noslash hsl hsemi] at h
      exact splitOnce_fst_subset h
  · exact h

theorem paramsSplit_snd_subset {s : Str} {x : Char} (h : x ∈ (paramsSplit s).2) : x ∈ s := by
  unfold paramsSplit at h
  split_ifs at h with hsemi
  · by_cases hsl : '/' ∈ s
    · by_cases hls : ';' ∈ lastSeg s
      · obtain ⟨d, hdw⟩ := dropWhile_ne_mem hls
        rw [splitparams_slash_semi hsl hls hdw] at h
        have : x ∈ (lastSeg s).dropWhile (fun x => decide (x ≠ ';')) := by
          rw [hdw]
          simp [h]
        exact mem_lastSeg (mem_of_mem_dropWhile this)
      · rw [splitparams_slash_nosemi hsl hls] at h
        simp at h
    · rw [splitparams_noslash hsl hsemi] at h
      exact splitOnce_snd_subset h
  · simp at h

theorem isUnsafeChar_toNat {c : Char} :
    isUnsafeChar c ↔ (c.toNat = 9 ∨ c.toNat = 13 ∨ c.toNat = 10) := by
  constructor
  · intro h
    rcases h with h | h | h <;> subst h
    · left; decide
    · right; left; decide
    · right; right; decide
  · intro h
    rcases h with h | h | h
    · exact Or.inl (char_eq_of_toNat_eq (by rw [h]; decide))
    · exact Or.inr (Or.inl (char_eq_of_toNat_eq (by rw [h]; decide)))
    · exact Or.inr (Or.inr (char_eq_of_toNat_eq (by rw [h]; decide)))

theorem toLower_not_unsafe {c : Char} (h : ¬isUnsafeChar c) :
    ¬isUnsafeChar (Char.toLower c) := by
  intro hu
  apply h
  rw [isUnsafeChar_toNat] at hu ⊢
  rw [toLower_toNat] at hu
  split_ifs at hu <;> omega

theorem mem_removeUnsafe_not_unsafe {u : Str} {x : Char} (h : x ∈ removeUnsafe u) :
    ¬isUnsafeChar x := by
  unfold removeUnsafe at h
  have := (List.mem_filter.mp h).2
  simp at this
  simp [isUnsafeChar]
  exact this

theorem shape_chain {u2 : Str}
    (h : u2 = [] ∨ ∃ c t, u2 = c :: t ∧ (c = '/' ∨ c = '?' ∨ c = '#')) :
    (splitOnce '?' (splitOnce '#' u2).1).1 = [] ∨
      ((splitOnce '?' (splitOnce '#' u2).1).1).head? = some '/' := by
  rcases h with h | ⟨c, t, he, hc⟩
  · subst h
    left
    rfl
  · subst he
    rcases hc with hc | hc | hc <;> subst hc
    · right
      unfold splitOnce
      rw [List.takeWhile_cons, if_pos (by decide), List.takeWhile_cons, if_pos (by decide)]
      try rfl
    · left
      unfold splitOnce
      rw [List.takeWhile_cons, if_pos (by decide), List.takeWhile_cons, if_neg (by decide)]
      try rfl
    · left
      unfold splitOnce
      rw [List.takeWhile_cons, if_neg (by decide)]
      try rfl

theorem paramsSplit_shape {s : Str} (hs : s = [] ∨ s.head? = some '/') :
    ((paramsSplit s).1 = [] ∧ (paramsSplit s).2 = []) ∨
      (paramsSplit s).1.head? = some '/' := by
  rcases hs with hs | hs
  · subst hs
    left
    constructor <;> rfl
  · rcases s with _ | ⟨c, t⟩
    · simp at hs
    · simp at hs
      subst hs
      right
      by_cases hsemi : ';' ∈ '/' :: t
      · rw [paramsSplit, if_pos hsemi]
        by_cases hls : ';' ∈ lastSeg ('/' :: t)
        · obtain ⟨d, hdw⟩ := dropWhile_ne_mem hls
          rw [splitparams_slash_semi (by simp) hls hdw]
          obtain ⟨a, hb⟩ := beforeLastSeg_of_mem (s := '/' :: t) (by simp)
          have hfull := beforeLastSeg_append_lastSeg ('/' :: t)
          rw [hb] at hfull ⊢
          have he : a ++ ['/'] ++ (lastSeg ('/' :: t)).takeWhile (fun x => decide (x ≠ ';')) =
              a ++ '/' :: (lastSeg ('/' :: t)).takeWhile (fun x => decide (x ≠ ';')) := by
            simp
          rw [show (a ++ ['/']) ++ lastSeg ('/' :: t) = a ++ '/' :: lastSeg ('/' :: t) from by
            simp] at hfull
          rw [he, head?_append_cons a '/' _ (lastSeg ('/' :: t)), hfull]
          rfl
        · rw [splitparams_slash_nosemi (by simp) hls]
          rfl
      · rw [paramsSplit, if_neg hsemi]
        rfl

theorem splitScheme_head_slash {s : Str} {t : Str} (he : s = '/' :: t) :
    splitScheme s = ([], s) := by
  subst he
  unfold splitScheme
  have htw : List.takeWhile (fun c => decide (c ≠ ':')) ('/' :: t) =
      '/' :: List.takeWhile (fun c => decide (c ≠ ':')) t := by
    rw [List.takeWhile_cons, if_pos (by decide)]
  have hdwc : List.dropWhile (fun c => decide (c ≠ ':')) ('/' :: t) =
      List.dropWhile (fun c => decide (c ≠ ':')) t := by
    rw [List.dropWhile_cons, if_pos (by decide)]
  rcases hdw : List.dropWhile (fun c => decide (c ≠ ':')) t with _ | ⟨d, r⟩
  · rw [hdwc, hdw, htw]
  · have hd := dropWhile_head_false hdw
    simp at hd
    subst hd
    rw [hdwc, hdw, htw]
    simp

theorem splitScheme_starts {c : Char} {cs R : Str} (ha : c.isAlpha = true)
    (hall : cs.all isSchemeChar = true) (hlow : (c :: cs).map Char.toLower = c :: cs) :
    splitScheme ((c :: cs) ++ ':' :: R) = (c :: cs, R) := by
  have hnc : ∀ x ∈ c :: cs, (fun x => decide (x ≠ ':')) x = true := by
    intro x hx
    simp
    rcases List.mem_cons.mp hx with he | hm
    · subst he
      exact isAlpha_ne_colon ha
    · exact isSchemeChar_ne_colon (by rw [List.all_eq_true] at hall; exact hall x hm)
  have hdw : List.dropWhile (fun x => decide (x ≠ ':')) ((c :: cs) ++ ':' :: R) = ':' :: R := by
    rw [dropWhile_append_all hnc, List.dropWhile_cons, if_neg (by simp)]
  have htw : List.takeWhile (fun x => decide (x ≠ ':')) ((c :: cs) ++ ':' :: R) = c :: cs := by
    rw [takeWhile_append_all hnc, List.takeWhile_cons, if_neg (by simp)]
    simp
  unfold splitScheme
  rw [hdw, htw]
  show (if c.isAlpha = true ∧ cs.all isSchemeChar = true then
      ((c :: cs).map Char.toLower, R) else ([], (c :: cs) ++ ':' :: R)) = (c :: cs, R)
  rw [if_pos ⟨ha, hall⟩, hlow]

theorem splitNetloc_rebuild {netloc X : Str}
    (hok : ∀ x ∈ netloc, x ≠ '/' ∧ x ≠ '?' ∧ x ≠ '#')
    (hX : X = [] ∨ ∃ c t, X = c :: t ∧ (c = '/' ∨ c = '?' ∨ c = '#')) :
    splitNetloc ('/' :: '/' :: (netloc ++ X)) = (netloc, X) := by
  have hall : ∀ x ∈ netloc, (fun c => decide (c ≠ '/' ∧ c ≠ '?' ∧ c ≠ '#')) x = true := by
    intro x hx
    simp
    exact hok x hx
  have htX : List.takeWhile (fun c => decide (c ≠ '/' ∧ c ≠ '?' ∧ c ≠ '#')) X = [] ∧
      List.dropWhile (fun c => decide (c ≠ '/' ∧ c ≠ '?' ∧ c ≠ '#')) X = X := by
    rcases hX with he | ⟨c, t, he, hc⟩
    · subst he
      exact ⟨rfl, rfl⟩
    · subst he
      constructor
      · rw [List.takeWhile_cons, if_neg (by rcases hc with hc | hc | hc <;> simp [hc])]
      · rw [List.dropWhile_cons, if_neg (by rcases hc with hc | hc | hc <;> simp [hc])]
  unfold splitNetloc
  show (List.takeWhile (fun c => decide (c ≠ '/' ∧ c ≠ '?' ∧ c ≠ '#')) (netloc ++ X),
      List.dropWhile (fun c => decide (c ≠ '/' ∧ c ≠ '?' ∧ c ≠ '#')) (netloc ++ X)) =
    (netloc, X)
  rw [takeWhile_append_all hall, dropWhile_append_all hall, htX.1, htX.2, List.append_nil]

theorem removeUnsafe_id {s : Str} (h : ∀ c ∈ s, ¬isUnsafeChar c) : removeUnsafe s = s := by
  unfold removeUnsafe
  rw [List.filter_eq_self]
  intro a ha
  have := h a ha
  simp [isUnsafeChar] at this
  simp [this]

theorem urlparse_assemble {S S1 S2 S4 : Str} {p : ParseResult}
    (h0 : removeUnsafe S = S)
    (h1 : splitScheme S = (p.scheme, S1))
    (h2 : splitNetloc S1 = (p.netloc, S2))
    (hbr : ¬(('[' ∈ p.netloc ∧ ']' ∉ p.netloc) ∨ (']' ∈ p.netloc ∧ '[' ∉ p.netloc)))
    (h3 : splitOnce '#' S2 = (S4 ++ (if p.query ≠ [] then '?' :: p.query else []), p.fragment))
    (h4 : splitOnce '?' (S4 ++ (if p.query ≠ [] then '?' :: p.query else [])) =
      (S4, p.query))
    (h5 : paramsSplit S4 = (p.path, p.params)) :
    urlparse S = some p := by
  simp only [urlparse, h0, h1, h2, h3, h4, h5, if_neg hbr]

theorem urlparse_inv {u : Str} {p : ParseResult} (h : urlparse u = some p) : ParseInv p := by
  simp only [urlparse] at h
  split_ifs at h with hbr
  · rw [Option.some_inj] at h
    subst h
    have hu0 : ∀ x ∈ removeUnsafe u, ¬isUnsafeChar x :=
      fun x hx => mem_removeUnsafe_not_unsafe hx
    have hsub1 : ∀ x ∈ (splitScheme (removeUnsafe u)).2, ¬isUnsafeChar x :=
      fun x hx => hu0 x (splitScheme_snd_subset hx)
    have hsub2 : ∀ x ∈ (splitNetloc (splitScheme (removeUnsafe u)).2).2, ¬isUnsafeChar x :=
      fun x hx => hsub1 x (splitNetloc_snd_subset hx)
    have hsub3 : ∀ x ∈ (splitOnce '#' (splitNetloc (splitScheme (removeUnsafe u)).2).2).1,
        ¬isUnsafeChar x :=
      fun x hx => hsub2 x (splitOnce_fst_subset hx)
    have hsub4 : ∀ x ∈
        (splitOnce '?' (splitOnce '#' (splitNetloc (splitScheme (removeUnsafe u)).2).2).1).1,
        ¬isUnsafeChar x :=
      fun x hx => hsub3 x (splitOnce_fst_subset hx)
    constructor
    · rcases splitScheme_spec (removeUnsafe u) with ⟨he, _⟩ | ⟨c, cs, he, ha, hall, _⟩
      · exact Or.inl he
      · right
        refine ⟨Char.toLower c, cs.map Char.toLower, by rw [he]; rfl,
          toLower_isAlpha ha, ?_, ?_⟩
        · rw [List.all_eq_true] at hall ⊢
          intro x hx
          rw [List.mem_map] at hx
          obtain ⟨y, hy, he2⟩ := hx
          subst he2
          exact isSchemeChar_toLower (hall y hy)
        · rw [he]
          simp only [List.map_map]
          apply List.map_congr_left
          intro x _
          exact toLower_idem x
    · intro c hc
      exact splitNetloc_fst_mem hc
    · exact hbr
    · constructor
      · intro hm
        exact splitOnce_fst_not_mem '#' _ (splitOnce_fst_subset (paramsSplit_fst_subset hm))
      · intro hm
        exact splitOnce_fst_not_mem '?' _ (paramsSplit_fst_subset hm)
    · constructor
      · intro hm
        exact splitOnce_fst_not_mem '#' _ (splitOnce_fst_subset (paramsSplit_snd_subset hm))
      · intro hm
        exact splitOnce_fst_not_mem '?' _ (paramsSplit_snd_subset hm)
    · intro hne
      rcases splitNetloc_cases (splitScheme (removeUnsafe u)).2 with ⟨he, _⟩ | hr
      · exact absurd he hne
      · exact paramsSplit_shape (shape_chain hr)
    · exact paramsSplit_resplit_any _ Prod.mk.eta.symm
    · intro x hx
      rcases splitScheme_spec (removeUnsafe u) with ⟨he, _⟩ | ⟨c, cs, he, _, _, hs⟩
      · rw [he] at hx
        simp at hx
      · rw [he] at hx
        rw [List.mem_map] at hx
        obtain ⟨y, hy, he2⟩ := hx
        subst he2
        apply toLower_not_unsafe
        apply hu0
        rw [hs]
        simp only [List.cons_append, List.mem_cons, List.mem_append]
        rcases List.mem_cons.mp hy with hy2 | hy2
        · exact Or.inl hy2
        · exact Or.inr (Or.inl hy2)
    · intro x hx
      exact hsub1 x (splitNetloc_fst_subset hx)
    · intro x hx
      exact hsub4 x (paramsSplit_fst_subset hx)
    · intro x hx
      exact hsub4 x (paramsSplit_snd_subset hx)
    · intro x hx
      exact hsub2 x (splitOnce_snd_subset hx)

theorem urlparse_urlunparse {p : ParseResult} (inv : ParseInv p) (hnl : p.netloc ≠ [])
    {q : Str} (hq : goodQuery q) :
    urlparse (urlunparse { p with query := q }) = some { p with query := q } := by
  obtain ⟨sc, nl, pa, pr, q0, fr⟩ := p
  show urlparse (urlunparse ⟨sc, nl, pa, pr, q, fr⟩) = some ⟨sc, nl, pa, pr, q, fr⟩
  have hnl' : nl ≠ [] := hnl
  have hshape : (pa = [] ∧ pr = []) ∨ pa.head? = some '/' := inv.shape hnl
  have hpaok : '#' ∉ pa ∧ '?' ∉ pa := inv.path_ok
  have hprok : '#' ∉ pr ∧ '?' ∉ pr := inv.params_ok
  have hresplit : paramsSplit (if pr ≠ [] then pa ++ ';' :: pr else pa) = (pa, pr) :=
    inv.params_resplit
  have hnlok : ∀ c ∈ nl, c ≠ '/' ∧ c ≠ '?' ∧ c ≠ '#' := inv.netloc_ok
  have hbr : ¬(('[' ∈ nl ∧ ']' ∉ nl) ∨ (']' ∈ nl ∧ '[' ∉ nl)) := inv.netloc_brackets
  have hscok : sc = [] ∨ ∃ c cs, sc = c :: cs ∧ c.isAlpha = true ∧
      cs.all isSchemeChar = true ∧ sc.map Char.toLower = sc := inv.scheme_ok
  have hscc : ∀ c ∈ sc, ¬isUnsafeChar c := inv.scheme_clean
  have hnlc : ∀ c ∈ nl, ¬isUnsafeChar c := inv.netloc_clean
  have hpac : ∀ c ∈ pa, ¬isUnsafeChar c := inv.path_clean
  have hprc : ∀ c ∈ pr, ¬isUnsafeChar c := inv.params_clean
  have hfrc : ∀ c ∈ fr, ¬isUnsafeChar c := inv.fragment_clean
  have hu0shape : (if pr ≠ [] then pa ++ ';' :: pr else pa) = [] ∨
      (if pr ≠ [] then pa ++ ';' :: pr else pa).head? = some '/' := by
    rcases hshape with ⟨h1, h2⟩ | hh
    · subst h1
      subst h2
      left
      simp
    · right
      by_cases hpr : pr ≠ []
      · rw [if_pos hpr]
        rcases pa with _ | ⟨c, t⟩
        · simp at hh
        · simp at hh
          subst hh
          rfl
      · rw [if_neg hpr]
        exact hh
  have hmem_url0 : ∀ x ∈ (if pr ≠ [] then pa ++ ';' :: pr else pa),
      x ∈ pa ∨ x = ';' ∨ x ∈ pr := by
    intro x hx
    by_cases hpr : pr ≠ []
    · rw [if_pos hpr] at hx
      rcases List.mem_append.mp hx with hm | hm
      · exact Or.inl hm
      · rcases List.mem_cons.mp hm with he | hm
        · exact Or.inr (Or.inl he)
        · exact Or.inr (Or.inr hm)
    · rw [if_neg hpr] at hx
      exact Or.inl hx
  have hu0_nohash : '#' ∉ (if pr ≠ [] then pa ++ ';' :: pr else pa) := by
    intro hm
    rcases hmem_url0 _ hm with hm | he | hm
    · exact hpaok.1 hm
    · exact absurd he (by decide)
    · exact hprok.1 hm
  have hu0_noq : '?' ∉ (if pr ≠ [] then pa ++ ';' :: pr else pa) := by
    intro hm
    rcases hmem_url0 _ hm with hm | he | hm
    · exact hpaok.2 hm
    · exact absurd he (by decide)
    · exact hprok.2 hm
  have hnoF : '#' ∉ (if pr ≠ [] then pa ++ ';' :: pr else pa) ++
      (if q ≠ [] then '?' :: q else []) := by
    intro hm
    rcases List.mem_append.mp hm with hm | hm
    · exact hu0_nohash hm
    · by_cases hq0 : q ≠ []
      · rw [if_pos hq0] at hm
        rcases List.mem_cons.mp hm with he | hm
        · exact absurd he (by decide)
        · exact (hq '#' hm).1 rfl
      · rw [if_neg hq0] at hm
        simp at hm
  have hsplitF : splitOnce '#'
      ((if pr ≠ [] then pa ++ ';' :: pr else pa) ++ (if q ≠ [] then '?' :: q else []) ++
        (if fr ≠ [] then '#' :: fr else [])) =
      ((if pr ≠ [] then pa ++ ';' :: pr else pa) ++ (if q ≠ [] then '?' :: q else []), fr) := by
    by_cases hf : fr ≠ []
    · rw [if_pos hf]
      exact splitOnce_append hnoF fr
    · rw [if_neg hf, List.append_nil, splitOnce_of_not_mem hnoF]
      simp at hf
      rw [hf]
  have hsplitQ : splitOnce '?'
      ((if pr ≠ [] then pa ++ ';' :: pr else pa) ++ (if q ≠ [] then '?' :: q else [])) =
      ((if pr ≠ [] then pa ++ ';' :: pr else pa), q) := by
    by_cases hq0 : q ≠ []
    · rw [if_pos hq0]
      exact splitOnce_append hu0_noq q
    · rw [if_neg hq0, List.append_nil, splitOnce_of_not_mem hu0_noq]
      simp at hq0
      rw [hq0]
  have hXshape : ((if pr ≠ [] then pa ++ ';' :: pr else pa) ++
        (if q ≠ [] then '?' :: q else []) ++ (if fr ≠ [] then '#' :: fr else [])) = [] ∨
      ∃ c t, ((if pr ≠ [] then pa ++ ';' :: pr else pa) ++
        (if q ≠ [] then '?' :: q else []) ++ (if fr ≠ [] then '#' :: fr else [])) = c :: t ∧
        (c = '/' ∨ c = '?' ∨ c = '#') := by
    rcases hu0shape with h0 | h0
    · rw [h0, List.nil_append]
      by_cases hq0 : q ≠ []
      · rw [if_pos hq0]
        exact Or.inr ⟨'?', q ++ (if fr ≠ [] then '#' :: fr else []), by simp,
          Or.inr (Or.inl rfl)⟩
      · rw [if_neg hq0, List.nil_append]
        by_cases hf : fr ≠ []
        · rw [if_pos hf]
          exact Or.inr ⟨'#', fr, rfl, Or.inr (Or.inr rfl)⟩
        · rw [if_neg hf]
          exact Or.inl rfl
    · rcases he : (if pr ≠ [] then pa ++ ';' :: pr else pa) with _ | ⟨c, t⟩
      · rw [he] at h0
        simp at h0
      · rw [he] at h0
        simp at h0
        subst h0
        exact Or.inr ⟨'/', t ++ (if q ≠ [] then '?' :: q else []) ++
          (if fr ≠ [] then '#' :: fr else []), by simp, Or.inl rfl⟩
  have hnet : splitNetloc ('/' :: '/' :: (nl ++ ((if pr ≠ [] then pa ++ ';' :: pr else pa) ++
      (if q ≠ [] then '?' :: q else []) ++ (if fr ≠ [] then '#' :: fr else [])))) =
      (nl, (if pr ≠ [] then pa ++ ';' :: pr else pa) ++
        (if q ≠ [] then '?' :: q else []) ++ (if fr ≠ [] then '#' :: fr else [])) :=
    splitNetloc_rebuild hnlok hXshape
  have hguard : ¬((if pr ≠ [] then pa ++ ';' :: pr else pa) ≠ [] ∧
      ¬(if pr ≠ [] then pa ++ ';' :: pr else pa).head? = some '/') := by
    rcases hu0shape with h | h
    · intro hc
      exact hc.1 h
    · intro hc
      exact hc.2 h
  have hcore_clean : ∀ c ∈ ('/' :: '/' :: (nl ++ ((if pr ≠ [] then pa ++ ';' :: pr else pa) ++
      (if q ≠ [] then '?' :: q else []) ++ (if fr ≠ [] then '#' :: fr else [])))),
      ¬isUnsafeChar c := by
    intro c hc
    rcases List.mem_cons.mp hc with he | hc
    · subst he
      decide
    rcases List.mem_cons.mp hc with he | hc
    · subst he
      decide
    rcases List.mem_append.mp hc with hm | hm
    · exact hnlc c hm
    rcases List.mem_append.mp hm with hm2 | hm2
    · rcases List.mem_append.mp hm2 with hm3 | hm3
      · rcases hmem_url0 _ hm3 with h | h | h
        · exact hpac c h
        · subst h
          decide
        · exact hprc c h
      · by_cases hq0 : q ≠ []
        · rw [if_pos hq0] at hm3
          rcases List.mem_cons.mp hm3 with he | hm4
          · subst he
            decide
          · have := hq c hm4
            rw [isUnsafeChar_toNat]
            intro habs
            rcases habs with habs | habs | habs
            · exact this.2.2.1 (char_eq_of_toNat_eq (by rw [habs]; decide))
            · exact this.2.2.2.1 (char_eq_of_toNat_eq (by rw [habs]; decide))
            · exact this.2.2.2.2 (char_eq_of_toNat_eq (by rw [habs]; decide))
        · rw [if_neg hq0] at hm3
          simp at hm3
    · by_cases hf : fr ≠ []
      · rw [if_pos hf] at hm2
        rcases List.mem_cons.mp hm2 with he | hm3
        · subst he
          decide
        · exact hfrc c hm3
      · rw [if_neg hf] at hm2
        simp at hm2
  have hS : urlunparse ⟨sc, nl, pa, pr, q, fr⟩ =
      (if sc ≠ [] then
        sc ++ ':' :: ('/' :: '/' :: (nl ++ ((if pr ≠ [] then pa ++ ';' :: pr else pa) ++
          (if q ≠ [] then '?' :: q else []) ++ (if fr ≠ [] then '#' :: fr else []))))
       else '/' :: '/' :: (nl ++ ((if pr ≠ [] then pa ++ ';' :: pr else pa) ++
          (if q ≠ [] then '?' :: q else []) ++ (if fr ≠ [] then '#' :: fr else [])))) := by
    unfold urlunparse
    simp only
    rw [if_pos (Or.inl hnl'), if_neg hguard]
    by_cases h2 : sc ≠ [] <;> by_cases h3 : q ≠ [] <;> by_cases h4 : fr ≠ [] <;>
      simp [h2, h3, h4, List.append_assoc]
  rw [hS]
  by_cases h2 : sc ≠ []
  · rw [if_pos h2]
    rcases hscok with he | ⟨c, cs, hsce, ha, hall, hlow⟩
    · exact absurd he h2
    subst hsce
    have hcleanS : removeUnsafe ((c :: cs) ++ ':' ::
        ('/' :: '/' :: (nl ++ ((if pr ≠ [] then pa ++ ';' :: pr else pa) ++
          (if q ≠ [] then '?' :: q else []) ++ (if fr ≠ [] then '#' :: fr else []))))) =
        (c :: cs) ++ ':' :: ('/' :: '/' :: (nl ++ ((if pr ≠ [] then pa ++ ';' :: pr else pa) ++
          (if q ≠ [] then '?' :: q else []) ++ (if fr ≠ [] then '#' :: fr else [])))) := by
      apply removeUnsafe_id
      intro x hx
      rcases List.mem_append.mp hx with hm | hm
      · exact hscc x hm
      · rcases List.mem_cons.mp hm with he | hm2
        · subst he
          decide
        · exact hcore_clean x hm2
    exact urlparse_assemble hcleanS (splitScheme_starts ha hall hlow) hnet hbr hsplitF
      hsplitQ hresplit
  · rw [if_neg h2]
    simp at h2
    subst h2
    have hcleanS : removeUnsafe ('/' :: '/' :: (nl ++
        ((if pr ≠ [] then pa ++ ';' :: pr else pa) ++
          (if q ≠ [] then '?' :: q else []) ++ (if fr ≠ [] then '#' :: fr else [])))) =
        '/' :: '/' :: (nl ++ ((if pr ≠ [] then pa ++ ';' :: pr else pa) ++
          (if q ≠ [] then '?' :: q else []) ++ (if fr ≠ [] then '#' :: fr else []))) :=
      removeUnsafe_id hcore_clean
    exact urlparse_assemble hcleanS (splitScheme_head_slash rfl) hnet hbr hsplitF
      hsplitQ hresplit

/-! ### clean_url characterization -/

theorem clean_url_none {u : Str} (hp : urlparse u = none) : clean_url u = u := by
  simp only [clean_url, hp]

theorem clean_url_unknown {u : Str} {p : ParseResult} (hp : urlparse u = some p)
    (h1 : lowerStr p.netloc ∉ YOUTUBE_HOSTS) (h2 : lowerStr p.netloc ∉ TWITTER_HOSTS) :
    clean_url u = u := by
  simp only [clean_url, hp]
  rw [if_neg h1, if_neg h2]

theorem hosts_disjoint {h : Str} (h1 : h ∈ YOUTUBE_HOSTS) (h2 : h ∈ TWITTER_HOSTS) :
    False := by
  fin_cases h1 <;> simp [TWITTER_HOSTS] at h2

theorem netloc_ne_of_host {p : ParseResult}
    (hh : lowerStr p.netloc ∈ YOUTUBE_HOSTS ∨ lowerStr p.netloc ∈ TWITTER_HOSTS) :
    p.netloc ≠ [] := by
  intro he
  rw [he] at hh
  rcases hh with hh | hh
  · simp [lowerStr, YOUTUBE_HOSTS] at hh
  · simp [lowerStr, TWITTER_HOSTS] at hh

theorem clean_url_eq {u : Str} {p : ParseResult} (hp : urlparse u = some p)
    (hh : lowerStr p.netloc ∈ YOUTUBE_HOSTS ∨ lowerStr p.netloc ∈ TWITTER_HOSTS) :
    clean_url u = urlunparse
      { p with query := urlencode ((parse_qsl p.query).filter (cleanFilter p)) } := by
  rcases hh with hh | hh
  · simp only [clean_url, hp]
    rw [if_pos hh]
    simp only [clean_youtube, hp]
    by_cases hbe : p.netloc = "youtu.be".toList
    · rw [if_pos hbe]
      have hf : (parse_qsl p.query).filter (fun kv => decide (kv.1 = "t".toList)) =
          (parse_qsl p.query).filter (cleanFilter p) := by
        apply List.filter_congr
        intro x _
        simp only [cleanFilter]
        rw [if_pos hh, if_pos hbe]
      rw [hf]
    · rw [if_neg hbe]
      have hf : (parse_qsl p.query).filter (fun kv => decide (kv.1 ∈ YOUTUBE_ALLOWED_PARAMS)) =
          (parse_qsl p.query).filter (cleanFilter p) := by
        apply List.filter_congr
        intro x _
        simp only [cleanFilter]
        rw [if_pos hh, if_neg hbe]
      rw [hf]
  · have hyt : lowerStr p.netloc ∉ YOUTUBE_HOSTS := fun hc => hosts_disjoint hc hh
    simp only [clean_url, hp]
    rw [if_neg hyt, if_pos hh]
    simp only [clean_twitter, hp]
    have hf : (parse_qsl p.query).filter (cleanFilter p) = [] := by
      have : ∀ x ∈ parse_qsl p.query, cleanFilter p x = false := by
        intro x _
        simp only [cleanFilter]
        rw [if_neg hyt]
      rw [List.filter_eq_nil_iff]
      intro x hx
      simp [this x hx]
    rw [hf]
    rfl

theorem clean_url_reparse {u : Str} {p : ParseResult} (hp : urlparse u = some p)
    (hh : lowerStr p.netloc ∈ YOUTUBE_HOSTS ∨ lowerStr p.netloc ∈ TWITTER_HOSTS) :
    urlparse (clean_url u) = some
      { p with query := urlencode ((parse_qsl p.query).filter (cleanFilter p)) } := by
  rw [clean_url_eq hp hh]
  exact urlparse_urlunparse (urlparse_inv hp) (netloc_ne_of_host hh)
    (goodQuery_urlencode _)

theorem clean_url_idempotent (u : Str) : clean_url (clean_url u) = clean_url u := by
  rcases hparse : urlparse u with _ | p
  · have h := clean_url_none hparse
    rw [h, h]
  · by_cases hh : lowerStr p.netloc ∈ YOUTUBE_HOSTS ∨ lowerStr p.netloc ∈ TWITTER_HOSTS
    · have hcp := clean_url_reparse hparse hh
      have hce := clean_url_eq hparse hh
      set Q := urlencode ((parse_qsl p.query).filter (cleanFilter p)) with hQ
      have hh2 : lowerStr ({ p with query := Q } : ParseResult).netloc ∈ YOUTUBE_HOSTS ∨
          lowerStr ({ p with query := Q } : ParseResult).netloc ∈ TWITTER_HOSTS := hh
      have h2 := clean_url_eq hcp hh2
      have hsimp : ({ p with query := Q } : ParseResult).query = Q := rfl
      have hcfeq : cleanFilter { p with query := Q } = cleanFilter p := rfl
      rw [hsimp, hcfeq, hQ, parse_qsl_urlencode, List.filter_filter] at h2
      have hfs : (parse_qsl p.query).filter
          (fun a => cleanFilter p a && cleanFilter p a) =
          (parse_qsl p.query).filter (cleanFilter p) :=
        List.filter_congr (fun x _ => by rw [Bool.and_self])
      rw [hfs, ← hQ] at h2
      have hcol : ({ ({ p with query := Q } : ParseResult) with query := Q } : ParseResult) =
          { p with query := Q } := rfl
      rw [hcol] at h2
      rw [h2, ← hce]
    · push_neg at hh
      have h := clean_url_unknown hparse hh.1 hh.2
      rw [h, h]

/-! ### Dedup queue lemmas -/

theorem dequeAppend_eq_lastCap (q : List Nat) (m : Nat) :
    dequeAppend q m = lastCap (q ++ [m]) := by
  unfold dequeAppend lastCap DEDUP_CACHE_SIZE
  split_ifs with h
  · rfl
  · have h0 : (q ++ [m]).length - 10 = 0 := by omega
    rw [h0, List.drop_zero]

theorem lastCap_length_le (l : List Nat) : (lastCap l).length ≤ 10 := by
  unfold lastCap DEDUP_CACHE_SIZE
  rw [List.length_drop]
  omega

theorem lastCap_append (l ms : List Nat) : lastCap (lastCap l ++ ms) = lastCap (l ++ ms) := by
  unfold lastCap DEDUP_CACHE_SIZE
  rw [List.drop_append_eq_append_drop, List.drop_append_eq_append_drop, List.drop_drop]
  simp only [List.length_append, List.length_drop]
  congr 2 <;> omega

theorem mem_dequeAppend {q : List Nat} {m x : Nat} (h : x ∈ dequeAppend q m) :
    x ∈ q ++ [m] := by
  unfold dequeAppend at h
  split_ifs at h
  · exact List.mem_of_mem_drop h
  · exact h

theorem offerAll_all_new {ids : List Nat} (hnodup : ids.Nodup) :
    ∀ q : List Nat, (∀ x ∈ ids, x ∉ q) → offerAll q ids = ids.foldl dequeAppend q := by
  induction ids with
  | nil =>
    intro q _
    rfl
  | cons m t ih =>
    intro q hdisj
    have hm : m ∉ q := hdisj m (by simp)
    rw [offerAll, is_new_message, if_neg hm]
    rw [List.foldl_cons]
    apply ih (List.Nodup.of_cons hnodup)
    intro x hx hmem
    rcases List.mem_append.mp (mem_dequeAppend hmem) with hm2 | hm2
    · exact hdisj x (by simp [hx]) hm2
    · simp at hm2
      subst hm2
      exact (List.nodup_cons.mp hnodup).1 hx

theorem foldl_dequeAppend {q : List Nat} (hlen : q.length ≤ 10) (ids : List Nat) :
    ids.foldl dequeAppend q = lastCap (q ++ ids) := by
  induction ids generalizing q with
  | nil =>
    rw [List.foldl_nil, List.append_nil]
    unfold lastCap DEDUP_CACHE_SIZE
    have h0 : q.length - 10 = 0 := by omega
    rw [h0, List.drop_zero]
  | cons m t ih =>
    rw [List.foldl_cons, ih (by rw [dequeAppend_eq_lastCap]; exact lastCap_length_le _),
      dequeAppend_eq_lastCap, lastCap_append]
    rw [List.append_assoc]
    rfl

theorem offerAll_distinct {ids : List Nat} (hnodup : ids.Nodup) :
    offerAll [] ids = lastCap ids := by
  rw [offerAll_all_new hnodup [] (by simp), foldl_dequeAppend (by simp)]
  rw [List.nil_append]

/-! ### Handler lemmas -/

theorem handleBody_no_change (cfg : Nat → Bool) (intro : Str) {msg : Message}
    (h : ∀ p ∈ msgUrls msg, clean_url p.1 = p.1) :
    handleBody cfg intro msg = ⟨false, none⟩ := by
  unfold handleBody
  split
  · rfl
  split
  · rfl
  rename_i text hpo
  split
  · rfl
  rename_i hte
  set ents := (if msg.entities ≠ [] then msg.entities else msg.caption_entities) with hents
  have hmu : msgUrls msg = extract_urls text ents := by
    simp only [msgUrls, msgText, msgEntities, hpo]
    rw [if_neg hte, hents]
  dsimp only
  split
  · rfl
  split
  · rfl
  rename_i hcm
  exfalso
  apply hcm
  rw [List.filterMap_eq_nil_iff]
  intro p hp
  have hc := h p (by rw [hmu]; exact hp)
  simp [hc]

theorem handleBody_effect (cfg : Nat → Bool) (intro : Str) {msg : Message}
    (h : handleBody cfg intro msg ≠ ⟨false, none⟩) :
    ∃ p ∈ msgUrls msg, clean_url p.1 ≠ p.1 := by
  by_contra hc
  push_neg at hc
  exact h (handleBody_no_change cfg intro fun p hp => hc p hp)

theorem handle_message_body (cfg : Nat → Bool) (intro : Str) {msg : Message}
    {q : List Nat} (hgate : ∀ mid, msg.message_id = some mid → mid ∉ q) :
    (handle_message cfg intro msg q).sent = (handleBody cfg intro msg).sent ∧
    (handle_message cfg intro msg q).deleted = (handleBody cfg intro msg).deleted := by
  unfold handle_message
  rcases hid : msg.message_id with _ | mid
  · exact ⟨rfl, rfl⟩
  · dsimp only
    rw [if_neg (hgate mid hid)]
    exact ⟨rfl, rfl⟩

/-! ### Claim theorems -/

/-- C1 (corrected to the "only if" direction): for a message that passes
the dedup gate, the handler sends a cleaned message or deletes the
original only if `clean_url` changes at least one extracted URL; when no
extracted URL changes, nothing is sent and nothing is deleted.  The
original "if and only if" fails on overlapping entities: see the
counterexample. -/
theorem C1_output_only_if_changed (cfg : Nat → Bool) (intro : Str) (msg : Message)
    (q : List Nat) (hgate : ∀ mid, msg.message_id = some mid → mid ∉ q) :
    ((∀ p ∈ msgUrls msg, clean_url p.1 = p.1) →
      (handle_message cfg intro msg q).sent = none ∧
      (handle_message cfg intro msg q).deleted = false) ∧
    ((handle_message cfg intro msg q).sent ≠ none ∨
        (handle_message cfg intro msg q).deleted = true →
      ∃ p ∈ msgUrls msg, clean_url p.1 ≠ p.1) := by
  obtain ⟨hs, hd⟩ := handle_message_body cfg intro hgate
  constructor
  · intro hall
    have hnb := handleBody_no_change cfg intro hall
    rw [hs, hd, hnb]
    exact ⟨rfl, rfl⟩
  · intro hor
    apply handleBody_effect cfg intro
    intro heq
    rw [hs, hd, heq] at hor
    simp at hor

theorem C1_output_only_if_changed_witness :
    ((∀ p ∈ msgUrls exampleMsg, clean_url p.1 = p.1) →
      (handle_message (fun _ => false) [] exampleMsg []).sent = none ∧
      (handle_message (fun _ => false) [] exampleMsg []).deleted = false) ∧
    ((handle_message (fun _ => false) [] exampleMsg []).sent ≠ none ∨
        (handle_message (fun _ => false) [] exampleMsg []).deleted = true →
      ∃ p ∈ msgUrls exampleMsg, clean_url p.1 ≠ p.1) :=
  C1_output_only_if_changed (fun _ => false) [] exampleMsg []
    (fun mid _ => List.not_mem_nil mid)

/-- C1 counterexample: the overlapping-entity message passes the dedup
gate and `clean_url` changes one of its extracted URLs (the embedded
short link), yet the handler sends nothing and deletes nothing — the
outer entity's splice restores the original text and the visible-change
guard fires, refuting the "if" direction of the original claim. -/
theorem C1_counterexample :
    (∃ p ∈ msgUrls overlapMsg, clean_url p.1 ≠ p.1) ∧
    handle_message (fun _ => false) [] overlapMsg [] = ⟨[1], false, none⟩ := by
  constructor
  · decide
  · decide

/-- C2: `clean_url` is idempotent. -/
theorem C2_clean_url_idempotent (u : Str) : clean_url (clean_url u) = clean_url u :=
  clean_url_idempotent u

/-- C3 (corrected): `clean_youtube` re-checks the netloc case-sensitively,
so the short-link branch applies only when the parsed netloc is exactly
`youtu.be` (not merely case-insensitively equal); for those URLs the
cleaned query decodes to exactly the `t`-named pairs of the input query in
order — all of them, not at most one.  The original case-insensitive
claim fails: see the counterexample. -/
theorem C3_shortlink_only_t {u : Str} {p : ParseResult} (hp : urlparse u = some p)
    (hb : p.netloc = "youtu.be".toList) :
    parse_qsl (queryOf (clean_url u)) =
      (parse_qsl p.query).filter (fun kv => kv.1 = "t".toList) := by
  have hl : lowerStr p.netloc ∈ YOUTUBE_HOSTS := by
    rw [hb]
    decide
  have hrp := clean_url_reparse hp (Or.inl hl)
  unfold queryOf
  rw [hrp]
  show parse_qsl (urlencode ((parse_qsl p.query).filter (cleanFilter p))) = _
  rw [parse_qsl_urlencode]
  apply List.filter_congr
  intro x _
  simp only [cleanFilter]
  rw [if_pos hl, if_pos hb]

theorem C3_shortlink_only_t_witness :
    parse_qsl (queryOf (clean_url ("https://youtu.be/A?t=1&x=2".toList))) =
      (parse_qsl (ParseResult.query
        ⟨"https".toList, "youtu.be".toList, "/A".toList, [],
          "t=1&x=2".toList, []⟩)).filter (fun kv => kv.1 = "t".toList) := by
  have hp : urlparse ("https://youtu.be/A?t=1&x=2".toList) =
      some ⟨"https".toList, "youtu.be".toList, "/A".toList, [],
        "t=1&x=2".toList, []⟩ := by
    decide
  exact C3_shortlink_only_t hp rfl

/-- C3 counterexample: `https://YOUTU.BE/A?v=abc` has lowercased host
`youtu.be`, but the case-sensitive re-check in `clean_youtube` routes it
to the allow-list branch, which keeps the non-`t` parameter `v` — the
original claim promised every parameter other than `t` is dropped. -/
theorem C3_counterexample :
    (∃ p, urlparse ("https://YOUTU.BE/A?v=abc".toList) = some p ∧
      lowerStr p.netloc = "youtu.be".toList) ∧
    parse_qsl (queryOf (clean_url ("https://YOUTU.BE/A?v=abc".toList))) =
      [("v".toList, "abc".toList)] := by
  constructor
  · exact ⟨⟨"https".toList, "YOUTU.BE".toList, "/A".toList, [],
      "v=abc".toList, []⟩, by decide, by decide⟩
  · decide

/-- C4: for a parseable URL with a known (video or microblog) host, the
rewrite keeps scheme, netloc, path and fragment unchanged; the cleaned
query's decoded pairs are exactly a policy filter of the input's decoded
pairs, hence a subsequence preserving the relative order of retained
pairs. -/
theorem C4_frame {u : Str} {p : ParseResult} (hp : urlparse u = some p)
    (hh : lowerStr p.netloc ∈ YOUTUBE_HOSTS ∨ lowerStr p.netloc ∈ TWITTER_HOSTS) :
    ∃ p2, urlparse (clean_url u) = some p2 ∧
      p2.scheme = p.scheme ∧ p2.netloc = p.netloc ∧ p2.path = p.path ∧
      p2.fragment = p.fragment ∧
      parse_qsl p2.query = (parse_qsl p.query).filter (cleanFilter p) ∧
      (parse_qsl p2.query).Sublist (parse_qsl p.query) := by
  have hq : parse_qsl
      ({ p with query := urlencode ((parse_qsl p.query).filter (cleanFilter p)) } :
        ParseResult).query =
      (parse_qsl p.query).filter (cleanFilter p) := parse_qsl_urlencode _
  refine ⟨_, clean_url_reparse hp hh, rfl, rfl, rfl, rfl, hq, ?_⟩
  rw [hq]
  exact List.filter_sublist _

theorem C4_frame_witness :
    ∃ p2, urlparse (clean_url ("https://x.com/a?s=2".toList)) = some p2 ∧
      p2.scheme = "https".toList ∧ p2.netloc = "x.com".toList ∧
      p2.path = "/a".toList ∧ p2.fragment = [] ∧
      parse_qsl p2.query = (parse_qsl ("s=2".toList)).filter
        (cleanFilter ⟨"https".toList, "x.com".toList, "/a".toList, [],
          "s=2".toList, []⟩) ∧
      (parse_qsl p2.query).Sublist (parse_qsl ("s=2".toList)) := by
  have hp : urlparse ("https://x.com/a?s=2".toList) =
      some ⟨"https".toList, "x.com".toList, "/a".toList, [], "s=2".toList, []⟩ := by
    decide
  have hh : lowerStr ("x.com".toList) ∈ YOUTUBE_HOSTS ∨
      lowerStr ("x.com".toList) ∈ TWITTER_HOSTS := Or.inr (by decide)
  exact C4_frame hp hh

/-- C5: `clean_url` is modelled as a total function; the only failure
point of the source, the `ValueError` that `urlparse` raises on a netloc
with unbalanced brackets, is modelled by `urlparse` returning `none`, and
in that case `clean_url` returns its input unchanged (the `except`
branch). -/
theorem C5_parse_failure_unchanged (u : Str) (hp : urlparse u = none) :
    clean_url u = u :=
  clean_url_none hp

theorem C5_parse_failure_unchanged_witness :
    urlparse ("//[x".toList) = none ∧ clean_url ("//[x".toList) = "//[x".toList :=
  ⟨by decide, C5_parse_failure_unchanged _ (by decide)⟩

/-- C6 (corrected): the rewrite does not keep the input's
percent-encoding character-identical; retained parameters are preserved
as decoded key-value pairs and re-encoded canonically by
`urlencode`/`quote_plus`: the output query is exactly `urlencode` of the
filtered decoded input pairs, and decodes back to exactly those pairs.
The original character-identity claim fails: see the counterexample. -/
theorem C6_reencode {u : Str} {p : ParseResult} (hp : urlparse u = some p)
    (hh : lowerStr p.netloc ∈ YOUTUBE_HOSTS ∨ lowerStr p.netloc ∈ TWITTER_HOSTS) :
    queryOf (clean_url u) = urlencode ((parse_qsl p.query).filter (cleanFilter p)) ∧
    parse_qsl (queryOf (clean_url u)) = (parse_qsl p.query).filter (cleanFilter p) := by
  have hrp := clean_url_reparse hp hh
  constructor
  · unfold queryOf
    rw [hrp]
  · unfold queryOf
    rw [hrp]
    show parse_qsl (urlencode ((parse_qsl p.query).filter (cleanFilter p))) = _
    rw [parse_qsl_urlencode]

theorem C6_reencode_witness :
    queryOf (clean_url ("https://youtu.be/A?t=1%202".toList)) =
      urlencode ((parse_qsl ("t=1%202".toList)).filter
        (cleanFilter ⟨"https".toList, "youtu.be".toList, "/A".toList, [],
          "t=1%202".toList, []⟩)) ∧
    parse_qsl (queryOf (clean_url ("https://youtu.be/A?t=1%202".toList))) =
      (parse_qsl ("t=1%202".toList)).filter
        (cleanFilter ⟨"https".toList, "youtu.be".toList, "/A".toList, [],
          "t=1%202".toList, []⟩) := by
  have hp : urlparse ("https://youtu.be/A?t=1%202".toList) =
      some ⟨"https".toList, "youtu.be".toList, "/A".toList, [],
        "t=1%202".toList, []⟩ := by
    decide
  have hh : lowerStr ("youtu.be".toList) ∈ YOUTUBE_HOSTS ∨
      lowerStr ("youtu.be".toList) ∈ TWITTER_HOSTS := Or.inl (by decide)
  exact C6_reencode hp hh

/-- C6 counterexample: in `https://youtu.be/A?t=1%202` the retained
parameter `t` is encoded as `t=1%202`; the cleaned URL carries the same
decoded pair `("t", "1 2")` but encodes it as `t=1+2`, so the encoding of
a retained value is not character-identical to the input. -/
theorem C6_counterexample :
    clean_url ("https://youtu.be/A?t=1%202".toList) =
      "https://youtu.be/A?t=1+2".toList ∧
    parse_qsl ("t=1%202".toList) = [("t".toList, "1 2".toList)] ∧
    parse_qsl ("t=1+2".toList) = [("t".toList, "1 2".toList)] :=
  ⟨by decide, by decide, by decide⟩

/-- C7: a parseable URL whose lowercased host is in neither host set
(including hostless strings, whose netloc is empty) is returned
unchanged. -/
theorem C7_unknown_unchanged {u : Str} {p : ParseResult} (hp : urlparse u = some p)
    (h1 : lowerStr p.netloc ∉ YOUTUBE_HOSTS) (h2 : lowerStr p.netloc ∉ TWITTER_HOSTS) :
    clean_url u = u :=
  clean_url_unknown hp h1 h2

theorem C7_unknown_unchanged_witness :
    clean_url ("https://example.com/page?x=1".toList) =
      "https://example.com/page?x=1".toList := by
  have hp : urlparse ("https://example.com/page?x=1".toList) =
      some ⟨"https".toList, "example.com".toList, "/page".toList, [],
        "x=1".toList, []⟩ := by
    decide
  exact C7_unknown_unchanged hp (by decide) (by decide)

/-- C8: the dedup cache is a FIFO of capacity 10: offering 11 distinct
identifiers to an empty cache evicts the first one, which is then treated
as new again. -/
theorem C8_fifo_eviction {ids : List Nat} (hlen : ids.length = 11) (hnodup : ids.Nodup)
    {m0 : Nat} (hhead : ids.head? = some m0) :
    m0 ∉ offerAll [] ids ∧ (is_new_message m0 (offerAll [] ids)).1 = true := by
  rcases ids with _ | ⟨a, t⟩
  · simp at hhead
  · have ham : a = m0 := by
      simp only [List.head?_cons, Option.some.injEq] at hhead
      exact hhead
    subst ham
    have hq := offerAll_distinct hnodup
    have hlt : t.length = 10 := by
      simp only [List.length_cons] at hlen
      omega
    have hlc : lastCap (a :: t) = t := by
      unfold lastCap DEDUP_CACHE_SIZE
      rw [List.length_cons, hlt]
      rfl
    have hnm : a ∉ t := (List.nodup_cons.mp hnodup).1
    rw [hq, hlc]
    refine ⟨hnm, ?_⟩
    unfold is_new_message
    rw [if_neg hnm]

theorem C8_fifo_eviction_witness :
    ([0, 1, 2, 3, 4, 5, 6, 7, 8, 9, 10] : List Nat).length = 11 ∧
    ([0, 1, 2, 3, 4, 5, 6, 7, 8, 9, 10] : List Nat).Nodup ∧
    (0 ∉ offerAll [] [0, 1, 2, 3, 4, 5, 6, 7, 8, 9, 10] ∧
      (is_new_message 0 (offerAll [] [0, 1, 2, 3, 4, 5, 6, 7, 8, 9, 10])).1 = true) :=
  ⟨rfl, by decide,
    @C8_fifo_eviction [0, 1, 2, 3, 4, 5, 6, 7, 8, 9, 10] rfl (by decide) 0 rfl⟩

/-- C9: offering an already-present identifier leaves the dedup queue
completely unchanged — `is_new_message` returns `false` without
appending, so a duplicate does not refresh its position in the eviction
order. -/
theorem C9_duplicate_no_refresh (mid : Nat) (q : List Nat) (h : mid ∈ q) :
    is_new_message mid q = (false, q) := by
  unfold is_new_message
  rw [if_pos h]

theorem C9_duplicate_no_refresh_witness :
    3 ∈ ([1, 3, 5] : List Nat) ∧ is_new_message 3 [1, 3, 5] = (false, [1, 3, 5]) :=
  ⟨by decide, C9_duplicate_no_refresh 3 [1, 3, 5] (by decide)⟩

/-- C10: a message whose id is absent bypasses the dedup gate entirely:
the queue is left unchanged, the body still runs (the effects equal the
body's effects), and a repeat delivery yields the identical result — the
pipeline is not idempotent for identifier-less messages. -/
theorem C10_no_id_bypass (cfg : Nat → Bool) (intro : Str) (msg : Message)
    (q : List Nat) (h : msg.message_id = none) :
    (handle_message cfg intro msg q).queue = q ∧
    (handle_message cfg intro msg q).deleted = (handleBody cfg intro msg).deleted ∧
    (handle_message cfg intro msg q).sent = (handleBody cfg intro msg).sent ∧
    handle_message cfg intro msg ((handle_message cfg intro msg q).queue) =
      handle_message cfg intro msg q := by
  unfold handle_message
  rw [h]
  exact ⟨rfl, rfl, rfl, rfl⟩

theorem C10_no_id_bypass_witness :
    noIdMsg.message_id = none ∧
    ((handle_message (fun _ => false) [] noIdMsg [4]).queue = [4] ∧
      (handle_message (fun _ => false) [] noIdMsg [4]).deleted =
        (handleBody (fun _ => false) [] noIdMsg).deleted ∧
      (handle_message (fun _ => false) [] noIdMsg [4]).sent =
        (handleBody (fun _ => false) [] noIdMsg).sent ∧
      handle_message (fun _ => false) [] noIdMsg
          ((handle_message (fun _ => false) [] noIdMsg [4]).queue) =
        handle_message (fun _ => false) [] noIdMsg [4]) :=
  ⟨rfl, C10_no_id_bypass (fun _ => false) [] noIdMsg [4] rfl⟩
